import Mathlib

/-!
Verification of the node-state store of the neos-ui repository
(`src/packages/neos-ui-redux-store/src/CR/Nodes/index.js`).

The store state lives under `cr.nodes` in the redux state tree: a map
`byContextPath` of node records keyed by context path, plus the scalar
fields `siteNode`, `focused` (`contextPath`/`fusionPath` pair),
`toBeRemoved`, `clipboard` and `clipboardMode`.  The reducer handles the
actions INIT, ADD, MOVE, FOCUS, UNFOCUS, COMMENCE_REMOVAL,
REMOVAL_ABORTED, REMOVAL_CONFIRMED, REMOVE, SWITCH_DIMENSION, COPY, CUT,
PASTE, HIDE, SHOW and UPDATE_URI.

Modelling decisions, each tied to the JavaScript semantics of the source:

* Node records are Immutable.js maps whose fields may be absent
  (JavaScript `undefined`), so every field of `Node` is an `Option`.
* `byContextPath` is modelled as an association list: Immutable.js `Map`
  (and plain objects with string keys) iterate in insertion order, keys
  are unique, and updates keep a key's position while newly created keys
  are appended at the end.  Well-formedness (`Nodup` on the keys) is
  assumed as a hypothesis where a proof needs it, in the style of
  list-backed map developments.
* JavaScript numbers appearing here are integers or `NaN`
  (`undefined - 1` is `NaN`), modelled by `JSNum`; an absent `index`
  field is `Option.none`.
* plow-js `$set` is Immutable `setIn`: setting a value at a path whose
  keys do not all exist creates the missing maps, so setting a field of
  an absent node record creates a partial record at that key.
* plow-js `$drop` is Immutable `deleteIn`: deleting an absent key is a
  no-op.
* plow-js `$merge` is Immutable `mergeDeepIn`: records present on both
  sides are merged field by field, recursively for nested maps
  (`properties`), index-wise for nested lists (`children`); fields
  absent from the payload survive.  For payloads with unique keys (the
  only ones expressible as JavaScript objects) the fold performed by
  `mergeDeepIn` equals the closed form used below (update matching keys
  in place, append new keys in payload order).
* `JSON.parse(JSON.stringify(nodeMap))` followed by `Immutable.fromJS`
  is the identity on the value space modelled here.
* JavaScript `String.prototype.replace` with a string pattern replaces
  only the first occurrence; `Array.prototype.sort` is stable and the
  three-way comparator of `populateChildren` makes elements with
  non-numeric (`undefined`/`NaN`) indices compare equal to everything,
  which a stable sort leaves in place.  Both are modelled by structural
  recursion below.
* `parentNodeContextPath` is imported from `helpers.js`, which is not
  part of the sources examined here; it is modelled from the spec (see
  its doc comment).
* SWITCH_DIMENSION also writes `ui.contentCanvas.contextPath`, a field
  outside the `cr.nodes` store modelled here ("the externally-tracked
  active document pointer"); that write is outside the model.
* In UPDATE_URI the rewritten uri is written back at the node's own
  `contextPath` *field*.  When that field is absent the JavaScript code
  would write under the key `undefined`; the model makes this a no-op,
  and every theorem touching UPDATE_URI assumes the `contextPath` field
  is present and equal to the record's key, which rules the case out.
-/

namespace NeosNodes

/-- A JavaScript number as it occurs in this store: an integer index or
`NaN` (the result of arithmetic on `undefined`). -/
inductive JSNum where
  | num (i : Int)
  | nan
deriving DecidableEq, Repr

/-- JavaScript `<` on possibly-absent numbers: any comparison involving
`undefined` or `NaN` is false. -/
def jsnLt : Option JSNum → Option JSNum → Bool
  | some (.num a), some (.num b) => a < b
  | _, _ => false

/-- JavaScript `x - k` where `x` may be `undefined` or `NaN`. -/
def jsSub (x : Option JSNum) (k : Int) : JSNum :=
  match x with
  | some (.num a) => .num (a - k)
  | _ => .nan

/-- JavaScript `x + k` where `x` may be `undefined` or `NaN`. -/
def jsAdd (x : Option JSNum) (k : Int) : JSNum :=
  match x with
  | some (.num a) => .num (a + k)
  | _ => .nan

/-- The lightweight reference `{contextPath, nodeType, index}` pushed
into a parent's `children` list by `populateChildren`. -/
structure ChildRef where
  contextPath : String
  nodeType : Option String
  index : Option JSNum
deriving DecidableEq, Repr

/-- A node record.  Every field is optional because records are
JavaScript objects / Immutable maps whose fields may be absent. -/
structure Node where
  contextPath : Option String := none
  parentContextPath : Option String := none
  nodeType : Option String := none
  index : Option JSNum := none
  properties : Option (List (String × Bool)) := none
  uri : Option String := none
  children : Option (List ChildRef) := none
deriving DecidableEq, Repr

/-- `byContextPath`: context path to node record, in insertion order. -/
abbrev NodeMap := List (String × Node)

/-- `nodes[contextPath]` (first matching key; keys are unique in any map
that denotes a JavaScript object). -/
def lookupNode : NodeMap → String → Option Node
  | [], _ => none
  | e :: rest, c => if e.1 = c then some e.2 else lookupNode rest c

/-- Truthiness of `nodes[contextPath]`. -/
def containsKey (m : NodeMap) (c : String) : Bool :=
  (lookupNode m c).isSome

/-- The key set (in iteration order). -/
def keysOf (m : NodeMap) : List String :=
  m.map Prod.fst

/-- Update the record at a key in place (all occurrences; unique in
well-formed maps), keeping its position. -/
def updateNode (m : NodeMap) (c : String) (f : Node → Node) : NodeMap :=
  m.map (fun e => if e.1 = c then (e.1, f e.2) else e)

/-- Immutable `setIn`-style field write: update the record in place when
the key exists, otherwise create a fresh record holding only the written
path and append it (new keys iterate last). -/
def setNodeAt (m : NodeMap) (c : String) (f : Node → Node) (created : Node) : NodeMap :=
  if containsKey m c then updateNode m c f else m ++ [(c, created)]

/-- Stable insertion of a child reference: JavaScript's stable sort with
the three-way `index` comparator places `x` after exactly those earlier
elements whose index is strictly smaller. -/
def insertChild (x : ChildRef) : List ChildRef → List ChildRef
  | [] => [x]
  | y :: ys => if jsnLt y.index x.index then y :: insertChild x ys else x :: y :: ys

/-- The `children.sort((a, b) => ...)` call of `populateChildren`:
stable ascending sort by `index`. -/
def sortChildren : List ChildRef → List ChildRef
  | [] => []
  | x :: xs => insertChild x (sortChildren xs)

/-- The reference pushed for a node stored under key `contextPath`. -/
def childRefOf (contextPath : String) (n : Node) : ChildRef :=
  { contextPath := contextPath, nodeType := n.nodeType, index := n.index }

/-- `parentNode.children.push(...)`: append `r` to the `children` of the
record at key `p` (no-op when `p` is absent, matching the
`if (parentNode && ...)` guard). -/
def pushChild (m : NodeMap) (p : String) (r : ChildRef) : NodeMap :=
  m.map (fun e =>
    if e.1 = p then (e.1, { e.2 with children := some ((e.2.children.getD []) ++ [r]) }) else e)

/-- First pass of `populateChildren`: `node.children = []` for every
record. -/
def resetChildren (m : NodeMap) : NodeMap :=
  m.map (fun e => (e.1, { e.2 with children := some [] }))

/-- One iteration of the second pass of `populateChildren`, processing
the record `e`: look up its parent and push a reference into the
parent's children.  The pass mutates only `children`, so the fields read
here (`parentContextPath`, `nodeType`, `index`) are those of the
first-pass result `m1`, while the push lands in the accumulator. -/
def insertionStep (m1 : NodeMap) (acc : NodeMap) (e : String × Node) : NodeMap :=
  match e.2.parentContextPath with
  | none => acc
  | some p => if containsKey m1 p then pushChild acc p (childRefOf e.1 e.2) else acc

/-- The Child Index Builder `populateChildren`: reset all `children`,
push a `{contextPath, nodeType, index}` reference into each resolvable
parent's list (in key iteration order), then stably sort every list
ascending by `index`. -/
def populateChildren (nodes : NodeMap) : NodeMap :=
  ((resetChildren nodes).foldl (insertionStep (resetChildren nodes)) (resetChildren nodes)).map
    (fun e => (e.1, { e.2 with children := some (sortChildren (e.2.children.getD [])) }))

/-- Specification-side description of a node's children before sorting:
the references of exactly those records whose `parentContextPath` equals
`k`, in map iteration order. -/
def childEntries (nodes : NodeMap) (k : String) : List ChildRef :=
  nodes.filterMap (fun e =>
    match e.2.parentContextPath with
    | some p => if p = k then some (childRefOf e.1 e.2) else none
    | none => none)

/-! ### Deep merge (plow-js `$merge` = Immutable `mergeDeepIn`) -/

/-- Merge a field: a value present in the payload replaces the old one,
an absent payload field keeps the old value. -/
def mField {α : Type} (old new : Option α) : Option α :=
  match new with
  | some v => some v
  | none => old

/-- Key lookup in a `properties` map. -/
def lookupProp : List (String × Bool) → String → Option Bool
  | [], _ => none
  | e :: rest, k => if e.1 = k then some e.2 else lookupProp rest k

/-- Truthiness of `properties[k]`. -/
def containsProp (a : List (String × Bool)) (k : String) : Bool :=
  (lookupProp a k).isSome

/-- The value of a `properties` key after merging `b` over it. -/
def propVal (b : List (String × Bool)) (k : String) (v : Bool) : Bool :=
  match lookupProp b k with
  | some w => w
  | none => v

/-- Deep merge of two `properties` maps: payload keys replace matching
keys in place, new keys are appended in payload order. -/
def mergeProps (a b : List (String × Bool)) : List (String × Bool) :=
  a.map (fun e => (e.1, propVal b e.1 e.2)) ++ b.filter (fun e => !(containsProp a e.1))

/-- Set (or create) a key of a `properties` map, Immutable `set` style:
update in place when present, append when new. -/
def setProp (a : List (String × Bool)) (k : String) (v : Bool) : List (String × Bool) :=
  if (lookupProp a k).isSome then
    a.map (fun e => if e.1 = k then (e.1, v) else e)
  else
    a ++ [(k, v)]

/-- Deep merge of two child references (nested maps inside `children`
lists): payload fields replace, `contextPath` is always present. -/
def mergeChildRef (x y : ChildRef) : ChildRef :=
  { contextPath := y.contextPath
    nodeType := mField x.nodeType y.nodeType
    index := mField x.index y.index }

/-- Immutable `mergeDeep` on lists merges index-wise; the tail of the
longer list survives. -/
def mergeChildLists : List ChildRef → List ChildRef → List ChildRef
  | [], bs => bs
  | a :: as, [] => a :: as
  | a :: as, b :: bs => mergeChildRef a b :: mergeChildLists as bs

/-- Deep merge of two node records: payload fields replace old fields,
nested maps (`properties`) and lists (`children`) merge recursively. -/
def mergeNode (a b : Node) : Node :=
  { contextPath := mField a.contextPath b.contextPath
    parentContextPath := mField a.parentContextPath b.parentContextPath
    nodeType := mField a.nodeType b.nodeType
    index := mField a.index b.index
    properties :=
      match a.properties, b.properties with
      | some pa, some pb => some (mergeProps pa pb)
      | pa, pb => mField pa pb
    uri := mField a.uri b.uri
    children :=
      match a.children, b.children with
      | some ca, some cb => some (mergeChildLists ca cb)
      | ca, cb => mField ca cb }

/-- The record left at a key of the old map after merging the payload
`p` over it. -/
def mergeVal (p : NodeMap) (k : String) (n : Node) : Node :=
  match lookupNode p k with
  | some pn => mergeNode n pn
  | none => n

/-- `byContextPath.mergeDeep(payload)`: records present on both sides
are deep-merged in place, new records are appended in payload order. -/
def mergeDeepNodes (a p : NodeMap) : NodeMap :=
  a.map (fun e => (e.1, mergeVal p e.1 e.2)) ++ p.filter (fun e => !(containsKey a e.1))

/-! ### String operations (kernel-friendly structural recursions) -/

/-- Occurrence of a character sequence inside another. -/
def hasInfix (needle : List Char) : List Char → Bool
  | [] => needle.isEmpty
  | c :: cs => needle.isPrefixOf (c :: cs) || hasInfix needle cs

/-- JavaScript `haystack.includes(needle)`. -/
def strIncludes (haystack needle : String) : Bool :=
  hasInfix needle.data haystack.data

/-- JavaScript `s.replace(pat, rep)` on character lists: replace the
first occurrence only. -/
def replaceFirstL (pat rep : List Char) : List Char → List Char
  | [] => []
  | c :: cs =>
    if pat.isPrefixOf (c :: cs) then rep ++ (c :: cs).drop pat.length
    else c :: replaceFirstL pat rep cs

/-- JavaScript `s.replace(pat, rep)`: first occurrence only (`pat` is
never empty at the call sites modelled here). -/
def replaceFirst (pat rep s : String) : String :=
  ⟨replaceFirstL pat.data rep.data s.data⟩

/-- Modelled from the spec: `parentNodeContextPath` is imported from
`src/packages/neos-ui-redux-store/src/CR/Nodes/helpers.js`, which is not
among the sources examined here.  Per the spec, a context path is a
"string key encoding identity + dimension context" with `@` as the
"path-context separator", and a `before`/`after` move re-parents the
moved node to "the target's parent".  The parent of a context path is
therefore the context path with the last segment of its path part
removed: split at the first `@` into path and context, drop the path's
last `/`-separated segment, and put path and context back together. -/
def parentNodeContextPath (contextPath : String) : String :=
  let cs := contextPath.data
  let path := cs.takeWhile (· ≠ '@')
  let context := ((cs.dropWhile (· ≠ '@')).drop 1).takeWhile (· ≠ '@')
  let parentPath := ((path.reverse.dropWhile (· ≠ '/')).drop 1).reverse
  ⟨parentPath ++ '@' :: context⟩

/-! ### Store state and actions -/

/-- The `cr.nodes` subtree of the redux store. -/
structure State where
  byContextPath : NodeMap
  siteNode : String
  focusedContextPath : String
  focusedFusionPath : String
  toBeRemoved : String
  clipboard : String
  clipboardMode : String
deriving DecidableEq, Repr

/-- The actions handled by the reducer (`showNode` models SHOW; `show`
is a Lean keyword). -/
inductive Action where
  | init
  | add (nodeMap : NodeMap)
  | focus (contextPath fusionPath : String)
  | unfocus
  | commenceRemoval (contextPath : String)
  | removalAborted
  | removalConfirmed
  | remove (contextPath : String)
  | switchDimension (siteNodeContextPath documentNodeContextPath : String) (nodes : NodeMap)
  | copy (contextPath : String)
  | cut (contextPath : String)
  | move (nodeToBeMoved targetNode position : String)
  | paste
  | hide (contextPath : String)
  | showNode (contextPath : String)
  | updateUri (oldUriFragment newUriFragment : String)
deriving DecidableEq, Repr

/-- `$set([..., c, 'index'], v, state)`. -/
def setIndexAt (m : NodeMap) (c : String) (v : JSNum) : NodeMap :=
  setNodeAt m c (fun n => { n with index := some v }) { index := some v }

/-- `$set([..., c, 'parentContextPath'], v, state)`. -/
def setParentAt (m : NodeMap) (c : String) (v : String) : NodeMap :=
  setNodeAt m c (fun n => { n with parentContextPath := some v })
    { parentContextPath := some v }

/-- `$set([..., c, 'properties', '_hidden'], v, state)`: creates the
`properties` map, and the whole record, when missing. -/
def setHiddenAt (m : NodeMap) (c : String) (v : Bool) : NodeMap :=
  setNodeAt m c (fun n => { n with properties := some (setProp (n.properties.getD []) "_hidden" v) })
    { properties := some [("_hidden", v)] }

/-- `$set([..., c, 'uri'], u, state)`. -/
def setUriAt (m : NodeMap) (c : String) (u : String) : NodeMap :=
  setNodeAt m c (fun n => { n with uri := some u }) { uri := some u }

/-- The uri match test of UPDATE_URI: the fragment followed by `/` or by
`@` occurs in the uri. -/
def uriMatches (oldFragment u : String) : Bool :=
  strIncludes u (oldFragment ++ "/") || strIncludes u (oldFragment ++ "@")

/-- The uri rewrite of UPDATE_URI: first replace the first occurrence of
`old@` by `new@`, then the first occurrence of `old/` by `new/`. -/
def rewriteUri (oldFragment newFragment u : String) : String :=
  replaceFirst (oldFragment ++ "/") (newFragment ++ "/")
    (replaceFirst (oldFragment ++ "@") (newFragment ++ "@") u)

/-- One UPDATE_URI write: when the record's uri matches, the rewritten
uri is set at the record's own `contextPath` field (a no-op when that
field is absent, see the module comment). -/
def uriStep (oldFragment newFragment : String) (acc : NodeMap) (e : String × Node) : NodeMap :=
  match e.2.uri with
  | none => acc
  | some u =>
    if uriMatches oldFragment u then
      match e.2.contextPath with
      | some c => setUriAt acc c (rewriteUri oldFragment newFragment u)
      | none => acc
    else acc

/-- The UPDATE_URI body: the guards are evaluated against the unchanged
snapshot (`allNodes`), the `$set` projections are then applied in
iteration order. -/
def updateUriMap (m : NodeMap) (oldFragment newFragment : String) : NodeMap :=
  m.foldl (uriStep oldFragment newFragment) m

/-- The MOVE index computation: the plow-js `$get` of the target's index
yields `undefined` for a missing target, and `undefined ± 1` is `NaN`. -/
def moveNewIndex (m : NodeMap) (targetNode position : String) : JSNum :=
  if position = "into" then .num 9007199254740991
  else if position = "before" then jsSub ((lookupNode m targetNode).bind Node.index) 1
  else jsAdd ((lookupNode m targetNode).bind Node.index) 1

/-- The MOVE base node computation: `into` targets the node itself,
`before`/`after` target its parent. -/
def moveBaseNode (targetNode position : String) : String :=
  if position = "into" then targetNode else parentNodeContextPath targetNode

/-- The reducer, one case per handled action type. -/
def reduce (a : Action) (s : State) : State :=
  match a with
  | .init =>
    { byContextPath := populateChildren s.byContextPath
      siteNode := s.siteNode
      focusedContextPath := ""
      focusedFusionPath := ""
      toBeRemoved := ""
      clipboard := ""
      clipboardMode := "" }
  | .add nodeMap =>
    { s with byContextPath := populateChildren (mergeDeepNodes s.byContextPath nodeMap) }
  | .focus contextPath fusionPath =>
    { s with focusedContextPath := contextPath, focusedFusionPath := fusionPath }
  | .unfocus =>
    { s with focusedContextPath := "", focusedFusionPath := "" }
  | .commenceRemoval contextPath =>
    { s with toBeRemoved := contextPath }
  | .removalAborted =>
    { s with toBeRemoved := "" }
  | .removalConfirmed =>
    { s with toBeRemoved := "" }
  | .remove contextPath =>
    { s with byContextPath := s.byContextPath.filter (fun e => e.1 ≠ contextPath) }
  | .switchDimension siteNodeContextPath _documentNodeContextPath nodes =>
    { s with
      siteNode := siteNodeContextPath
      focusedContextPath := ""
      focusedFusionPath := ""
      byContextPath := mergeDeepNodes s.byContextPath (populateChildren nodes) }
  | .copy contextPath =>
    { s with clipboard := contextPath, clipboardMode := "Copy" }
  | .cut contextPath =>
    { s with clipboard := contextPath, clipboardMode := "Move" }
  | .move nodeToBeMoved targetNode position =>
    { s with byContextPath := populateChildren (setParentAt (setIndexAt s.byContextPath nodeToBeMoved (moveNewIndex s.byContextPath targetNode position)) nodeToBeMoved (moveBaseNode targetNode position)) }
  | .paste =>
    { s with clipboard := "" }
  | .hide contextPath =>
    { s with byContextPath := setHiddenAt s.byContextPath contextPath true }
  | .showNode contextPath =>
    { s with byContextPath := setHiddenAt s.byContextPath contextPath false }
  | .updateUri oldFragment newFragment =>
    { s with byContextPath := updateUriMap s.byContextPath oldFragment newFragment }

/-! ### Association-list lemmas -/

theorem lookupNode_nil (c : String) : lookupNode [] c = none := rfl

theorem lookupNode_cons (e : String × Node) (rest : NodeMap) (c : String) :
    lookupNode (e :: rest) c = if e.1 = c then some e.2 else lookupNode rest c := rfl

theorem lookup_mapVal (f : String → Node → Node) (m : NodeMap) (k : String) :
    lookupNode (m.map (fun e => (e.1, f e.1 e.2))) k = (lookupNode m k).map (f k) := by
  induction m with
  | nil => rfl
  | cons e rest ih =>
    by_cases h : e.1 = k
    · subst h; simp [lookupNode_cons]
    · simp only [List.map_cons, lookupNode_cons, if_neg h, ih]

theorem keysOf_mapVal (f : String → Node → Node) (m : NodeMap) :
    keysOf (m.map (fun e => (e.1, f e.1 e.2))) = keysOf m := by
  simp [keysOf]

theorem lookup_updateNode (m : NodeMap) (c : String) (f : Node → Node) (k : String) :
    lookupNode (updateNode m c f) k =
      (lookupNode m k).map (fun n => if k = c then f n else n) := by
  induction m with
  | nil => rfl
  | cons e rest ih =>
    simp only [updateNode, List.map_cons] at ih ⊢
    by_cases hek : e.1 = k
    · subst hek
      by_cases hec : e.1 = c
      · simp [lookupNode_cons, hec]
      · simp [lookupNode_cons, hec]
    · by_cases hec : e.1 = c
      · simp only [if_pos hec, lookupNode_cons, if_neg hek, ih]
      · simp only [if_neg hec, lookupNode_cons, if_neg hek, ih]

theorem keysOf_updateNode (m : NodeMap) (c : String) (f : Node → Node) :
    keysOf (updateNode m c f) = keysOf m := by
  induction m with
  | nil => rfl
  | cons e rest ih =>
    simp only [updateNode, List.map_cons] at ih ⊢
    by_cases hec : e.1 = c <;> simp only [if_pos, if_neg, hec, keysOf, List.map_cons] at ih ⊢ <;>
      simp [keysOf] at ih ⊢ <;> exact ih

theorem lookup_append (m m' : NodeMap) (k : String) :
    lookupNode (m ++ m') k =
      match lookupNode m k with
      | some n => some n
      | none => lookupNode m' k := by
  induction m with
  | nil => rfl
  | cons e rest ih =>
    by_cases h : e.1 = k
    · simp [lookupNode_cons, h]
    · simp only [List.cons_append, lookupNode_cons, if_neg h, ih]

theorem lookup_setNodeAt (m : NodeMap) (c : String) (f : Node → Node) (created : Node)
    (k : String) :
    lookupNode (setNodeAt m c f created) k =
      match lookupNode m k with
      | some n => some (if k = c then f n else n)
      | none => if k = c then some created else none := by
  unfold setNodeAt
  by_cases hc : containsKey m c
  · rw [if_pos hc, lookup_updateNode]
    cases hm : lookupNode m k with
    | some n => simp
    | none =>
      simp only [Option.map_none]
      by_cases hkc : k = c
      · subst hkc
        simp only [containsKey, hm, Option.isSome_none] at hc
        cases hc
      · simp [hkc]
  · rw [if_neg hc, lookup_append]
    cases hm : lookupNode m k with
    | some n =>
      by_cases hkc : k = c
      · subst hkc
        simp [containsKey, hm] at hc
      · simp [hkc]
    | none =>
      by_cases hkc : k = c
      · subst hkc; simp [lookupNode_cons]
      · rw [lookupNode_cons, if_neg (fun h : c = k => hkc h.symm), if_neg hkc, lookupNode_nil]

theorem lookup_filter_ne (m : NodeMap) (c k : String) :
    lookupNode (m.filter (fun e => e.1 ≠ c)) k =
      if k = c then none else lookupNode m k := by
  by_cases hkc : k = c
  · subst hkc
    rw [if_pos rfl]
    induction m with
    | nil => rfl
    | cons e rest ih =>
      by_cases hec : e.1 = k
      · rw [List.filter_cons_of_neg (by simp [hec])]
        exact ih
      · rw [List.filter_cons_of_pos (by simp [hec]), lookupNode_cons, if_neg hec]
        exact ih
  · rw [if_neg hkc]
    induction m with
    | nil => rfl
    | cons e rest ih =>
      by_cases hec : e.1 = c
      · rw [List.filter_cons_of_neg (by simp [hec]), ih, lookupNode_cons,
          if_neg (fun h : e.1 = k => hkc (h ▸ hec))]
      · rw [List.filter_cons_of_pos (by simp [hec]), lookupNode_cons, lookupNode_cons, ih]

/-! ### Characterization of `populateChildren` -/

theorem containsKey_of_mem :
    ∀ {m : NodeMap} {e : String × Node}, e ∈ m → containsKey m e.1 = true
  | [], _, h => by cases h
  | e' :: rest, e, h => by
    rcases List.mem_cons.mp h with rfl | hmem
    · simp [containsKey, lookupNode_cons]
    · by_cases he : e'.1 = e.1
      · simp [containsKey, lookupNode_cons, he]
      · simpa [containsKey, lookupNode_cons, he] using containsKey_of_mem hmem

/-- The references accumulated for key `k` by one pass of the insertion
fold over the entries `es` (the parent-existence guard refers to `m1`). -/
def refsFor (m1 : NodeMap) (es : NodeMap) (k : String) : List ChildRef :=
  es.filterMap (fun e =>
    match e.2.parentContextPath with
    | some p =>
      if p = k then (if containsKey m1 p then some (childRefOf e.1 e.2) else none) else none
    | none => none)

theorem refsFor_nil (m1 : NodeMap) (k : String) : refsFor m1 [] k = [] := rfl

theorem refsFor_cons_none {e : String × Node} (m1 : NodeMap) (es : NodeMap) (k : String)
    (h : e.2.parentContextPath = none) :
    refsFor m1 (e :: es) k = refsFor m1 es k := by
  unfold refsFor
  rw [List.filterMap_cons, h]

theorem refsFor_cons_some {e : String × Node} {p : String} (m1 : NodeMap) (es : NodeMap)
    (k : String) (h : e.2.parentContextPath = some p) :
    refsFor m1 (e :: es) k =
      (if p = k then (if containsKey m1 p then [childRefOf e.1 e.2] else []) else [])
        ++ refsFor m1 es k := by
  unfold refsFor
  rw [List.filterMap_cons, h]
  by_cases hp : p = k
  · subst hp
    by_cases hc : containsKey m1 p <;> simp [hc]
  · simp [hp]

theorem pushChild_map (m : NodeMap) (p : String) (r : ChildRef) :
    pushChild m p r =
      m.map (fun e =>
        if e.1 = p then (e.1, { e.2 with children := some ((e.2.children.getD []) ++ [r]) })
        else e) := rfl

theorem insertionStep_none {m1 acc : NodeMap} {e : String × Node}
    (h : e.2.parentContextPath = none) : insertionStep m1 acc e = acc := by
  unfold insertionStep
  rw [h]

theorem insertionStep_some {m1 acc : NodeMap} {e : String × Node} {p : String}
    (h : e.2.parentContextPath = some p) :
    insertionStep m1 acc e =
      if containsKey m1 p then pushChild acc p (childRefOf e.1 e.2) else acc := by
  unfold insertionStep
  rw [h]

theorem foldl_insertionStep (m1 : NodeMap) (es : List (String × Node)) :
    ∀ acc : NodeMap, (∀ e ∈ acc, (e.2.children).isSome) →
    List.foldl (insertionStep m1) acc es =
      acc.map (fun e =>
        (e.1, { e.2 with children := some ((e.2.children).getD [] ++ refsFor m1 es e.1) })) := by
  induction es with
  | nil =>
    intro acc hacc
    rw [List.foldl_nil]
    refine ((List.map_congr_left ?_).trans (List.map_id _)).symm
    intro e he
    rcases hc : e.2.children with _ | l
    · exact absurd (hacc e he) (by simp [hc])
    · simp only [Option.getD_some, refsFor_nil, List.append_nil]
      rw [← hc]
      rfl
  | cons e rest ih =>
    intro acc hacc
    rw [List.foldl_cons]
    rcases hpar : e.2.parentContextPath with _ | p
    · rw [insertionStep_none hpar, ih acc hacc]
      apply List.map_congr_left
      intro a _
      rw [refsFor_cons_none m1 rest a.1 hpar]
    · rw [insertionStep_some hpar]
      by_cases hc : containsKey m1 p
      · rw [if_pos hc]
        have hpres : ∀ e' ∈ pushChild acc p (childRefOf e.1 e.2), (e'.2.children).isSome := by
          intro e' he'
          rw [pushChild_map, List.mem_map] at he'
          obtain ⟨a, ha, rfl⟩ := he'
          by_cases hap : a.1 = p
          · simp [hap]
          · simp only [if_neg hap]
            exact hacc a ha
        rw [ih _ hpres, pushChild_map, List.map_map]
        apply List.map_congr_left
        intro a _
        simp only [Function.comp]
        by_cases hap : a.1 = p
        · subst hap
          rw [if_pos rfl, refsFor_cons_some m1 rest a.1 hpar, if_pos rfl, if_pos hc]
          simp [List.append_assoc]
        · rw [if_neg hap, refsFor_cons_some m1 rest a.1 hpar,
            if_neg (fun h : p = a.1 => hap h.symm), List.nil_append]
      · rw [if_neg hc, ih acc hacc]
        apply List.map_congr_left
        intro a _
        rw [refsFor_cons_some m1 rest a.1 hpar]
        by_cases hpk : p = a.1
        · rw [if_pos hpk, if_neg hc, List.nil_append]
        · rw [if_neg hpk, List.nil_append]

theorem resetChildren_mem_isSome (nodes : NodeMap) :
    ∀ e ∈ resetChildren nodes, (e.2.children).isSome := by
  intro e he
  rw [resetChildren, List.mem_map] at he
  obtain ⟨a, _, rfl⟩ := he
  rfl

theorem lookup_resetChildren (nodes : NodeMap) (k : String) :
    lookupNode (resetChildren nodes) k =
      (lookupNode nodes k).map (fun n => { n with children := some [] }) :=
  lookup_mapVal (fun _ n => { n with children := some [] }) nodes k

theorem containsKey_resetChildren (nodes : NodeMap) (c : String) :
    containsKey (resetChildren nodes) c = containsKey nodes c := by
  unfold containsKey
  rw [lookup_resetChildren]
  cases lookupNode nodes c <;> rfl

theorem childEntries_mapVal (f : String → Node → Node)
    (hf : ∀ k n, (f k n).parentContextPath = n.parentContextPath ∧
      (f k n).nodeType = n.nodeType ∧ (f k n).index = n.index)
    (nodes : NodeMap) (k : String) :
    childEntries (nodes.map (fun e => (e.1, f e.1 e.2))) k = childEntries nodes k := by
  induction nodes with
  | nil => rfl
  | cons e rest ih =>
    unfold childEntries at ih ⊢
    rw [List.map_cons, List.filterMap_cons, List.filterMap_cons, ih]
    congr 1
    obtain ⟨h1, h2, h3⟩ := hf e.1 e.2
    have hcr : childRefOf e.1 (f e.1 e.2) = childRefOf e.1 e.2 := by
      unfold childRefOf
      rw [h2, h3]
    rw [show ((e.1, f e.1 e.2) : String × Node).2.parentContextPath = e.2.parentContextPath
      from h1]
    cases e.2.parentContextPath with
    | none => rfl
    | some p => simp [hcr]

theorem childEntries_resetChildren (nodes : NodeMap) (k : String) :
    childEntries (resetChildren nodes) k = childEntries nodes k :=
  childEntries_mapVal (fun _ n => { n with children := some [] })
    (fun _ _ => ⟨rfl, rfl, rfl⟩) nodes k

theorem refsFor_eq_childEntries (m1 : NodeMap) (es : NodeMap) (k : String)
    (hk : containsKey m1 k = true) :
    refsFor m1 es k = childEntries es k := by
  induction es with
  | nil => rfl
  | cons e rest ih =>
    unfold refsFor childEntries at ih ⊢
    rw [List.filterMap_cons, List.filterMap_cons, ih]
    congr 1
    cases e.2.parentContextPath with
    | none => rfl
    | some p =>
      by_cases hpk : p = k
      · subst hpk
        simp [hk]
      · simp [hpk]

/-- The Child Index Builder, characterized entry-wise: every record is
kept in place with only its `children` replaced by the sorted references
of exactly the records whose `parentContextPath` equals its key. -/
theorem populate_eq_map (nodes : NodeMap) :
    populateChildren nodes =
      nodes.map (fun e =>
        (e.1, { e.2 with children := some (sortChildren (childEntries nodes e.1)) })) := by
  unfold populateChildren
  rw [foldl_insertionStep (resetChildren nodes) (resetChildren nodes) (resetChildren nodes)
    (resetChildren_mem_isSome nodes), List.map_map, resetChildren, List.map_map]
  apply List.map_congr_left
  intro e he
  have hk : containsKey (resetChildren nodes) e.1 = true := by
    rw [containsKey_resetChildren]
    exact containsKey_of_mem he
  have hrf : refsFor (resetChildren nodes) (resetChildren nodes) e.1 = childEntries nodes e.1 := by
    rw [refsFor_eq_childEntries (resetChildren nodes) (resetChildren nodes) e.1 hk,
      childEntries_resetChildren]
  show (e.1, { e.2 with children := some (sortChildren (refsFor (resetChildren nodes) (resetChildren nodes) e.1)) }) = (e.1, { e.2 with children := some (sortChildren (childEntries nodes e.1)) })
  rw [hrf]

theorem lookup_populateChildren (nodes : NodeMap) (k : String) :
    lookupNode (populateChildren nodes) k =
      (lookupNode nodes k).map
        (fun n => { n with children := some (sortChildren (childEntries nodes k)) }) := by
  rw [populate_eq_map]
  exact lookup_mapVal
    (fun k n => { n with children := some (sortChildren (childEntries nodes k)) }) nodes k

theorem keysOf_populateChildren (nodes : NodeMap) :
    keysOf (populateChildren nodes) = keysOf nodes := by
  rw [populate_eq_map]
  exact keysOf_mapVal
    (fun k n => { n with children := some (sortChildren (childEntries nodes k)) }) nodes

/-! ### Skeleton congruence: `populateChildren` only looks at the
non-`children` fields (and key order) of its input. -/

/-- A map entry with its derived `children` field erased. -/
def entrySkel (e : String × Node) : String × Node :=
  (e.1, { e.2 with children := none })

theorem childEntries_entrySkel (nodes : NodeMap) (k : String) :
    childEntries (nodes.map entrySkel) k = childEntries nodes k :=
  childEntries_mapVal (fun _ n => { n with children := none })
    (fun _ _ => ⟨rfl, rfl, rfl⟩) nodes k

theorem childEntries_congr {X Y : NodeMap} (h : X.map entrySkel = Y.map entrySkel)
    (k : String) : childEntries X k = childEntries Y k := by
  rw [← childEntries_entrySkel X k, h, childEntries_entrySkel Y k]

theorem populate_congr {X Y : NodeMap} (h : X.map entrySkel = Y.map entrySkel) :
    populateChildren X = populateChildren Y := by
  rw [populate_eq_map, populate_eq_map]
  have hX : ∀ ce : String → List ChildRef,
      X.map (fun e => (e.1, { e.2 with children := some (sortChildren (ce e.1)) })) =
        (X.map entrySkel).map
          (fun e => (e.1, { e.2 with children := some (sortChildren (ce e.1)) })) := by
    intro ce
    rw [List.map_map]
    rfl
  have hY : ∀ ce : String → List ChildRef,
      Y.map (fun e => (e.1, { e.2 with children := some (sortChildren (ce e.1)) })) =
        (Y.map entrySkel).map
          (fun e => (e.1, { e.2 with children := some (sortChildren (ce e.1)) })) := by
    intro ce
    rw [List.map_map]
    rfl
  rw [hX (fun k => childEntries X k), hY (fun k => childEntries Y k), h]
  apply List.map_congr_left
  intro e _
  simp only [childEntries_congr h]

theorem populate_entrySkel (nodes : NodeMap) :
    (populateChildren nodes).map entrySkel = nodes.map entrySkel := by
  rw [populate_eq_map, List.map_map]
  rfl

theorem populate_idem (nodes : NodeMap) :
    populateChildren (populateChildren nodes) = populateChildren nodes :=
  populate_congr (populate_entrySkel nodes)

/-! ### The stable sort -/

/-- `insertChild` splices `x` in front of the first element not strictly
below it, leaving the rest untouched: the result is a permutation of
`x :: l`. -/
theorem insertChild_perm (x : ChildRef) (l : List ChildRef) :
    List.Perm (insertChild x l) (x :: l) := by
  induction l with
  | nil => exact List.Perm.refl _
  | cons y ys ih =>
    unfold insertChild
    by_cases h : jsnLt y.index x.index
    · rw [if_pos h]
      exact (ih.cons y).trans (List.Perm.swap x y ys)
    · rw [if_neg h]

theorem sortChildren_perm (l : List ChildRef) : List.Perm (sortChildren l) l := by
  induction l with
  | nil => exact List.Perm.refl _
  | cons x xs ih =>
    exact (insertChild_perm x (sortChildren xs)).trans (ih.cons x)

/-- The ascending order on numeric indices produced by the three-way
comparator. -/
def jsnLe (a b : Option JSNum) : Prop := jsnLt b a = false

theorem insertChild_sorted {x : ChildRef} {l : List ChildRef}
    (hl : l.Pairwise (fun a b => jsnLe a.index b.index))
    (hx : ∃ i, x.index = some (.num i))
    (hnum : ∀ r ∈ l, ∃ i, r.index = some (.num i)) :
    (insertChild x l).Pairwise (fun a b => jsnLe a.index b.index) := by
  induction l with
  | nil => exact List.pairwise_singleton _ _
  | cons y ys ih =>
    obtain ⟨i, hi⟩ := hx
    obtain ⟨j, hj⟩ := hnum y (List.mem_cons_self y ys)
    unfold insertChild
    by_cases h : jsnLt y.index x.index
    · rw [if_pos h]
      rw [List.pairwise_cons]
      constructor
      · intro b hb
        rcases List.mem_cons.mp ((insertChild_perm x ys).mem_iff.mp hb) with rfl | hbys
        · show jsnLt b.index y.index = false
          rw [hi, hj] at h ⊢
          simp only [jsnLt, decide_eq_true_eq] at h
          simp only [jsnLt, decide_eq_false_iff_not, not_lt]
          omega
        · exact (List.pairwise_cons.mp hl).1 b hbys
      · exact ih (List.pairwise_cons.mp hl).2
          (fun r hr => hnum r (List.mem_cons_of_mem y hr))
    · rw [if_neg h]
      simp only [Bool.not_eq_true] at h
      rw [List.pairwise_cons]
      refine ⟨?_, hl⟩
      intro b hb
      rcases List.mem_cons.mp hb with rfl | hbys
      · exact h
      · obtain ⟨q, hq⟩ := hnum b (List.mem_cons_of_mem y hbys)
        have hyb := (List.pairwise_cons.mp hl).1 b hbys
        show jsnLt b.index x.index = false
        have hyb' : jsnLt b.index y.index = false := hyb
        rw [hq, hi]
        rw [hq, hj] at hyb'
        rw [hj, hi] at h
        simp only [jsnLt, decide_eq_false_iff_not, not_lt] at hyb' h ⊢
        omega

theorem sortChildren_sorted {l : List ChildRef}
    (hnum : ∀ r ∈ l, ∃ i, r.index = some (.num i)) :
    (sortChildren l).Pairwise (fun a b => jsnLe a.index b.index) := by
  induction l with
  | nil => exact List.Pairwise.nil
  | cons x xs ih =>
    unfold sortChildren
    refine insertChild_sorted ?_ (hnum x (List.mem_cons_self x xs)) ?_
    · exact ih (fun r hr => hnum r (List.mem_cons_of_mem x hr))
    · intro r hr
      exact hnum r (List.mem_cons_of_mem x ((sortChildren_perm xs).mem_iff.mp hr))

/-- Stability: elements with any given index keep their relative order
through the sort (ties are broken by encounter order). -/
theorem filter_insertChild_eq (x : ChildRef) (l : List ChildRef) (v : Int) :
    (insertChild x l).filter (fun r => r.index = some (.num v)) =
      (if x.index = some (JSNum.num v) then [x] else []) ++
        l.filter (fun r => r.index = some (.num v)) := by
  induction l with
  | nil =>
    by_cases hx : x.index = some (JSNum.num v) <;>
      simp [insertChild, List.filter, hx]
  | cons y ys ih =>
    unfold insertChild
    by_cases h : jsnLt y.index x.index
    · rw [if_pos h]
      by_cases hy : y.index = some (JSNum.num v)
      · by_cases hx : x.index = some (JSNum.num v)
        · -- impossible: y.index < x.index strictly but both equal v
          rw [hy, hx] at h
          simp [jsnLt] at h
        · simp [List.filter_cons, hy, hx, ih]
      · simp [List.filter_cons, hy, ih]
    · rw [if_neg h]
      by_cases hx : x.index = some (JSNum.num v) <;> simp [List.filter_cons, hx]

theorem filter_sortChildren_eq (l : List ChildRef) (v : Int) :
    (sortChildren l).filter (fun r => r.index = some (.num v)) =
      l.filter (fun r => r.index = some (.num v)) := by
  induction l with
  | nil => rfl
  | cons x xs ih =>
    unfold sortChildren
    rw [filter_insertChild_eq, ih, List.filter_cons]
    by_cases hx : x.index = some (JSNum.num v) <;> simp [hx]

/-! ### Helpers for the claims -/

/-- Decidable test for a present, numeric `index` field. -/
def isNum : Option JSNum → Bool
  | some (.num _) => true
  | _ => false

theorem isNum_iff {x : Option JSNum} : isNum x = true ↔ ∃ i, x = some (JSNum.num i) := by
  cases x with
  | none => simp [isNum]
  | some j => cases j <;> simp [isNum]

theorem mem_childEntries {nodes : NodeMap} {k : String} {r : ChildRef}
    (hr : r ∈ childEntries nodes k) :
    ∃ e, e ∈ nodes ∧ e.2.parentContextPath = some k ∧ r = childRefOf e.1 e.2 := by
  unfold childEntries at hr
  rw [List.mem_filterMap] at hr
  obtain ⟨e, he, hfe⟩ := hr
  rcases hp : e.2.parentContextPath with _ | p
  · simp only [hp] at hfe
    exact Option.noConfusion hfe
  · simp only [hp] at hfe
    by_cases hpk : p = k
    · rw [if_pos hpk] at hfe
      injection hfe with hfe
      exact ⟨e, he, by rw [hp, hpk], hfe.symm⟩
    · rw [if_neg hpk] at hfe
      cases hfe

theorem lookup_eq_of_mem_nodup :
    ∀ {m : NodeMap}, (keysOf m).Nodup → ∀ {e : String × Node}, e ∈ m →
      lookupNode m e.1 = some e.2
  | [], _, _, he => by cases he
  | a :: rest, hnd, e, he => by
    rcases List.mem_cons.mp he with rfl | hmem
    · rw [lookupNode_cons, if_pos rfl]
    · by_cases hae : a.1 = e.1
      · exfalso
        have h1 : e.1 ∈ keysOf rest := List.mem_map_of_mem Prod.fst hmem
        exact (List.nodup_cons.mp hnd).1 (hae ▸ h1)
      · rw [lookupNode_cons, if_neg hae]
        exact lookup_eq_of_mem_nodup (List.nodup_cons.mp hnd).2 hmem

theorem containsKey_true_of_lookup {m : NodeMap} {k : String} {n : Node}
    (h : lookupNode m k = some n) : containsKey m k = true := by
  unfold containsKey
  rw [h]
  rfl

/-! ### C1 -/

/-- C1: for every node map, after the Child Index Builder
(`populateChildren`) runs, each node's `children` list contains exactly
the `{contextPath, nodeType, index}` entries of the nodes whose
`parentContextPath` equals that node's context path (a permutation of
and equal to their stable sort), sorted ascending by `index`
(`Pairwise jsnLe`) with ties broken stably by encounter order (elements
of equal index appear in the same order as in map iteration order); and
a node whose `parentContextPath` resolves to no key of the map appears
in no `children` list.  `populateChildren` is a total function, so no
error is raised on any input. -/
theorem populateChildren_spec (nodes : NodeMap)
    (hnd : (keysOf nodes).Nodup)
    (hnum : ∀ e ∈ nodes, isNum e.2.index = true) :
    ∀ k n, lookupNode (populateChildren nodes) k = some n →
      n.children = some (sortChildren (childEntries nodes k)) ∧
      List.Perm (sortChildren (childEntries nodes k)) (childEntries nodes k) ∧
      (sortChildren (childEntries nodes k)).Pairwise (fun a b => jsnLe a.index b.index) ∧
      (∀ v : Int, (sortChildren (childEntries nodes k)).filter
          (fun r => r.index = some (JSNum.num v)) =
        (childEntries nodes k).filter (fun r => r.index = some (JSNum.num v))) ∧
      (∀ c nc, lookupNode nodes c = some nc →
        (∀ p, nc.parentContextPath = some p → containsKey nodes p = false) →
        ∀ r ∈ (n.children.getD []), r.contextPath ≠ c) := by
  intro k n hkn
  rw [lookup_populateChildren] at hkn
  rcases hnk : lookupNode nodes k with _ | n0
  · rw [hnk] at hkn
    cases hkn
  · rw [hnk] at hkn
    injection hkn with hkn
    have hch : n.children = some (sortChildren (childEntries nodes k)) := by
      rw [← hkn]
    have hnument : ∀ r ∈ childEntries nodes k, ∃ i, r.index = some (JSNum.num i) := by
      intro r hr
      obtain ⟨e, he, _, rfl⟩ := mem_childEntries hr
      exact isNum_iff.mp (hnum e he)
    refine ⟨hch, sortChildren_perm _, sortChildren_sorted hnument,
      fun v => filter_sortChildren_eq _ v, ?_⟩
    intro c nc hcnc hnores r hrch hrc
    rw [hch] at hrch
    simp only [Option.getD_some] at hrch
    have hrce : r ∈ childEntries nodes k := (sortChildren_perm _).mem_iff.mp hrch
    obtain ⟨e, he, hpar, rfl⟩ := mem_childEntries hrce
    have he1 : e.1 = c := hrc
    have hlk : lookupNode nodes e.1 = some e.2 := lookup_eq_of_mem_nodup hnd he
    rw [he1, hcnc] at hlk
    injection hlk with hlk
    have hparc : nc.parentContextPath = some k := by
      rw [hlk]
      exact hpar
    have := hnores k hparc
    rw [containsKey_true_of_lookup hnk] at this
    cases this

/-- A concrete three-node map for the C1 witness: a parent whose own
parent is unresolvable, one child, and an orphan. -/
def c1nodes : NodeMap :=
  [("p@live", { contextPath := some "p@live", parentContextPath := some "/x@live", nodeType := some "page", index := some (.num 1) }),
   ("a@live", { contextPath := some "a@live", parentContextPath := some "p@live", nodeType := some "text", index := some (.num 2) }),
   ("o@live", { contextPath := some "o@live", parentContextPath := some "gone@live", nodeType := some "text", index := some (.num 3) })]

/-- The populated parent record of `c1nodes`. -/
def c1popP : Node :=
  { contextPath := some "p@live", parentContextPath := some "/x@live", nodeType := some "page", index := some (.num 1),
    children := some [{ contextPath := "a@live", nodeType := some "text", index := some (.num 2) }] }

/-- Witness for C1 at `c1nodes`: the hypotheses hold and the populated
parent's children are exactly the sorted child entries. -/
theorem populateChildren_spec_witness :
    lookupNode (populateChildren c1nodes) "p@live" = some c1popP ∧
    c1popP.children = some (sortChildren (childEntries c1nodes "p@live")) ∧
    sortChildren (childEntries c1nodes "p@live") =
      [{ contextPath := "a@live", nodeType := some "text", index := some (.num 2) }] := by
  have h := populateChildren_spec c1nodes (by decide) (by decide) "p@live" c1popP (by decide)
  exact ⟨by decide, h.1, by decide⟩

/-! ### Field setters, characterized -/

theorem lookup_setIndexAt (m : NodeMap) (c : String) (v : JSNum) (k : String) :
    lookupNode (setIndexAt m c v) k =
      if k = c then some { (lookupNode m c).getD {} with index := some v }
      else lookupNode m k := by
  unfold setIndexAt
  rw [lookup_setNodeAt]
  by_cases hkc : k = c
  · subst hkc
    cases hm : lookupNode m k <;> simp [hm]
  · cases hm : lookupNode m k <;> simp [hkc]

theorem lookup_setParentAt (m : NodeMap) (c : String) (v : String) (k : String) :
    lookupNode (setParentAt m c v) k =
      if k = c then some { (lookupNode m c).getD {} with parentContextPath := some v }
      else lookupNode m k := by
  unfold setParentAt
  rw [lookup_setNodeAt]
  by_cases hkc : k = c
  · subst hkc
    cases hm : lookupNode m k <;> simp [hm]
  · cases hm : lookupNode m k <;> simp [hkc]

theorem lookup_setUriAt (m : NodeMap) (c : String) (u : String) (k : String) :
    lookupNode (setUriAt m c u) k =
      if k = c then some { (lookupNode m c).getD {} with uri := some u }
      else lookupNode m k := by
  unfold setUriAt
  rw [lookup_setNodeAt]
  by_cases hkc : k = c
  · subst hkc
    cases hm : lookupNode m k <;> simp [hm]
  · cases hm : lookupNode m k <;> simp [hkc]

theorem lookup_setHiddenAt (m : NodeMap) (c : String) (v : Bool) (k : String) :
    lookupNode (setHiddenAt m c v) k =
      if k = c then
        some { (lookupNode m c).getD {} with properties := some (setProp
          ((((lookupNode m c).getD {}).properties).getD []) "_hidden" v) }
      else lookupNode m k := by
  unfold setHiddenAt
  rw [lookup_setNodeAt]
  by_cases hkc : k = c
  · subst hkc
    cases hm : lookupNode m k <;> simp [hm, setProp, lookupProp]
  · cases hm : lookupNode m k <;> simp [hkc]

/-! ### C2 -/

/-- C2: for every store state and MOVE payload, provided the target's
`index` is a number `i`, the moved node ends up (observably, in the
final populated map) with index `9007199254740991` for `into`, `i - 1`
for `before` and `i + 1` otherwise, and with `parentContextPath` the
target itself for `into` and the target's parent for `before`/`after`;
and the resulting map is a fixed point of the Child Index Builder,
i.e. the builder has been re-run over the whole map. -/
theorem move_index_parent_spec (s : State) (src tgt pos : String) (i : Int)
    (htgt : (lookupNode s.byContextPath tgt).bind Node.index = some (JSNum.num i)) :
    ((lookupNode (reduce (.move src tgt pos) s).byContextPath src).map Node.index) =
      some (some (if pos = "into" then JSNum.num 9007199254740991
        else if pos = "before" then JSNum.num (i - 1) else JSNum.num (i + 1))) ∧
    ((lookupNode (reduce (.move src tgt pos) s).byContextPath src).map Node.parentContextPath) =
      some (some (if pos = "into" then tgt else parentNodeContextPath tgt)) ∧
    populateChildren (reduce (.move src tgt pos) s).byContextPath =
      (reduce (.move src tgt pos) s).byContextPath := by
  have hidx : moveNewIndex s.byContextPath tgt pos =
      (if pos = "into" then JSNum.num 9007199254740991
        else if pos = "before" then JSNum.num (i - 1) else JSNum.num (i + 1)) := by
    unfold moveNewIndex
    rw [htgt]
    by_cases h1 : pos = "into"
    · simp [h1]
    · by_cases h2 : pos = "before" <;> simp [h1, h2, jsSub, jsAdd]
  refine ⟨?_, ?_, ?_⟩
  · simp only [reduce]
    rw [lookup_populateChildren, lookup_setParentAt, if_pos rfl, lookup_setIndexAt, if_pos rfl]
    simp [hidx, moveBaseNode]
  · simp only [reduce]
    rw [lookup_populateChildren, lookup_setParentAt, if_pos rfl, lookup_setIndexAt, if_pos rfl]
    simp [moveBaseNode]
  · simp only [reduce]
    exact populate_idem _

/-- The one-node state used by the C2 witness. -/
def c2state : State :=
  { byContextPath := [("t@live", { contextPath := some "t@live", index := some (.num 5) })]
    siteNode := "", focusedContextPath := "", focusedFusionPath := "",
    toBeRemoved := "", clipboard := "", clipboardMode := "" }

/-- Witness for C2: moving (absent) node `n@live` before `t@live`
(index 5) stores index 4 on it. -/
theorem move_index_parent_spec_witness :
    ((lookupNode c2state.byContextPath "t@live").bind Node.index = some (JSNum.num 5)) ∧
    ((lookupNode (reduce (.move "n@live" "t@live" "before") c2state).byContextPath "n@live").map Node.index) = some (some (JSNum.num 4)) := by
  have h := move_index_parent_spec c2state "n@live" "t@live" "before" 5 (by decide)
  exact ⟨by decide, h.1.trans (by decide)⟩

/-! ### C3 -/

/-- The concrete sibling state of C3: A(index 1), B(index 2),
C(index 3) under parent P = `/site@live`. -/
def c3state : State :=
  { byContextPath :=
      [("/site@live", { contextPath := some "/site@live", parentContextPath := some "/@live", nodeType := some "t", index := some (.num 0) }),
       ("/site/a@live", { contextPath := some "/site/a@live", parentContextPath := some "/site@live", nodeType := some "t", index := some (.num 1) }),
       ("/site/b@live", { contextPath := some "/site/b@live", parentContextPath := some "/site@live", nodeType := some "t", index := some (.num 2) }),
       ("/site/c@live", { contextPath := some "/site/c@live", parentContextPath := some "/site@live", nodeType := some "t", index := some (.num 3) })]
    siteNode := "/site@live", focusedContextPath := "", focusedFusionPath := "",
    toBeRemoved := "", clipboard := "", clipboardMode := "" }

/-- C3: moving A `after` B in `c3state` gives A index 3 and parent P,
and P's rebuilt children are [B, A, C] (indices 2, 3, 3; the tie between
A and C broken by prior encounter order). -/
theorem move_after_concrete :
    ((lookupNode (reduce (.move "/site/a@live" "/site/b@live" "after") c3state).byContextPath "/site/a@live").map Node.index) = some (some (.num 3)) ∧
    ((lookupNode (reduce (.move "/site/a@live" "/site/b@live" "after") c3state).byContextPath "/site/a@live").map Node.parentContextPath) = some (some "/site@live") ∧
    ((lookupNode (reduce (.move "/site/a@live" "/site/b@live" "after") c3state).byContextPath "/site@live").bind Node.children) =
      some [{ contextPath := "/site/b@live", nodeType := some "t", index := some (.num 2) },
            { contextPath := "/site/a@live", nodeType := some "t", index := some (.num 3) },
            { contextPath := "/site/c@live", nodeType := some "t", index := some (.num 3) }] := by
  decide

/-! ### C4: UPDATE_URI -/

theorem lookup_eq_none_of_not_mem_keys {m : NodeMap} {k : String} (h : k ∉ keysOf m) :
    lookupNode m k = none := by
  induction m with
  | nil => rfl
  | cons e rest ih =>
    rw [lookupNode_cons, if_neg (fun he : e.1 = k => h (he ▸ List.mem_cons_self e.1 (keysOf rest)))]
    exact ih (fun hk => h (List.mem_cons_of_mem _ hk))

theorem containsKey_setUriAt (m : NodeMap) (c : String) (u : String) (x : String) :
    containsKey (setUriAt m c u) x = if x = c then true else containsKey m x := by
  unfold containsKey
  rw [lookup_setUriAt]
  by_cases hxc : x = c
  · simp [hxc]
  · simp [hxc]

/-- The value an UPDATE_URI pass leaves at key `k` whose current record
is `n`, when the guards were evaluated on the snapshot `es`. -/
def uriWriteVal (oldF newF : String) (es : NodeMap) (k : String) (n : Node) : Node :=
  match lookupNode es k with
  | some old =>
    match old.uri with
    | some u => if uriMatches oldF u then { n with uri := some (rewriteUri oldF newF u) } else n
    | none => n
  | none => n

/-- The accumulated effect of the UPDATE_URI writes of the snapshot
entries `es` on a map `acc`. -/
def applyUriWrites (oldF newF : String) (es acc : NodeMap) : NodeMap :=
  acc.map (fun a => (a.1, uriWriteVal oldF newF es a.1 a.2))

theorem lookup_applyUriWrites (oldF newF : String) (es acc : NodeMap) (k : String) :
    lookupNode (applyUriWrites oldF newF es acc) k =
      (lookupNode acc k).map (uriWriteVal oldF newF es k) :=
  lookup_mapVal (uriWriteVal oldF newF es) acc k

theorem foldl_uriStep (oldF newF : String) :
    ∀ (es : NodeMap), (∀ e ∈ es, e.2.contextPath = some e.1) → (keysOf es).Nodup →
    ∀ acc : NodeMap, (∀ e ∈ es, containsKey acc e.1 = true) →
    List.foldl (uriStep oldF newF) acc es = applyUriWrites oldF newF es acc := by
  intro es
  induction es with
  | nil =>
    intro _ _ acc _
    rw [List.foldl_nil]
    unfold applyUriWrites
    refine ((List.map_congr_left ?_).trans (List.map_id _)).symm
    intro a _
    unfold uriWriteVal
    rw [lookupNode_nil]
    rfl
  | cons e rest ih =>
    intro hck hnd acc hkeys
    rw [List.foldl_cons]
    have hcke : e.2.contextPath = some e.1 := hck e (List.mem_cons_self e rest)
    have hck' : ∀ a ∈ rest, a.2.contextPath = some a.1 :=
      fun a ha => hck a (List.mem_cons_of_mem e ha)
    have hnd' : (keysOf rest).Nodup := (List.nodup_cons.mp hnd).2
    have hnotrest : lookupNode rest e.1 = none :=
      lookup_eq_none_of_not_mem_keys (List.nodup_cons.mp hnd).1
    rcases hu : e.2.uri with _ | u
    · have hstep : uriStep oldF newF acc e = acc := by
        unfold uriStep
        rw [hu]
      rw [hstep, ih hck' hnd' acc (fun a ha => hkeys a (List.mem_cons_of_mem e ha))]
      apply List.map_congr_left
      intro a _
      unfold uriWriteVal
      by_cases hae : e.1 = a.1
      · rw [← hae]
        simp [lookupNode_cons, hu, hnotrest]
      · simp [lookupNode_cons, hae]
    · by_cases hmatch : uriMatches oldF u
      · have hstep : uriStep oldF newF acc e =
            setUriAt acc e.1 (rewriteUri oldF newF u) := by
          unfold uriStep
          rw [hu]
          simp [hmatch, hcke]
        rw [hstep]
        have hkeys' : ∀ a ∈ rest, containsKey (setUriAt acc e.1 (rewriteUri oldF newF u)) a.1 = true := by
          intro a ha
          rw [containsKey_setUriAt]
          by_cases hax : a.1 = e.1
          · rw [if_pos hax]
          · rw [if_neg hax]
            exact hkeys a (List.mem_cons_of_mem e ha)
        rw [ih hck' hnd' _ hkeys']
        have hset : setUriAt acc e.1 (rewriteUri oldF newF u) =
            updateNode acc e.1 (fun n => { n with uri := some (rewriteUri oldF newF u) }) := by
          unfold setUriAt setNodeAt
          rw [if_pos (hkeys e (List.mem_cons_self e rest))]
        rw [hset]
        unfold applyUriWrites updateNode
        rw [List.map_map]
        apply List.map_congr_left
        intro a _
        simp only [Function.comp]
        by_cases hae : a.1 = e.1
        · rw [if_pos hae, hae]
          unfold uriWriteVal
          simp [lookupNode_cons, hnotrest, hu, hmatch]
        · rw [if_neg hae]
          unfold uriWriteVal
          rw [lookupNode_cons, if_neg (fun h : e.1 = a.1 => hae h.symm)]
      · have hstep : uriStep oldF newF acc e = acc := by
          unfold uriStep
          rw [hu]
          simp [hmatch]
        rw [hstep, ih hck' hnd' acc (fun a ha => hkeys a (List.mem_cons_of_mem e ha))]
        apply List.map_congr_left
        intro a _
        unfold uriWriteVal
        by_cases hae : e.1 = a.1
        · rw [← hae]
          simp [lookupNode_cons, hu, hnotrest, hmatch]
        · simp [lookupNode_cons, hae]

/-- C4: UPDATE_URI rewrites the uri of every node whose uri contains
`oldUriFragment` immediately followed by `/` or by `@` (replacing the
first occurrence of each separator pattern by `newUriFragment` with the
same separator, via one JavaScript `replace` per pattern) and leaves
every other node — and every other field — unchanged.  Assumes the
well-formed shape in which every record's `contextPath` field equals its
key. -/
theorem updateUri_spec (s : State) (oldF newF : String)
    (hnd : (keysOf s.byContextPath).Nodup)
    (hck : ∀ e ∈ s.byContextPath, e.2.contextPath = some e.1) :
    ∀ k n, lookupNode s.byContextPath k = some n →
      lookupNode (reduce (.updateUri oldF newF) s).byContextPath k =
        some (match n.uri with
          | some u => if uriMatches oldF u then { n with uri := some (rewriteUri oldF newF u) } else n
          | none => n) := by
  intro k n hkn
  show lookupNode (updateUriMap s.byContextPath oldF newF) k = _
  unfold updateUriMap
  rw [foldl_uriStep oldF newF s.byContextPath hck hnd s.byContextPath
    (fun e he => containsKey_of_mem he), lookup_applyUriWrites, hkn]
  have : uriWriteVal oldF newF s.byContextPath k n =
      (match n.uri with
        | some u => if uriMatches oldF u then { n with uri := some (rewriteUri oldF newF u) } else n
        | none => n) := by
    unfold uriWriteVal
    rw [hkn]
  rw [Option.map_some', this]

/-- The three-node shop state of C4's concrete scenario. -/
def c4state : State :=
  { byContextPath :=
      [("a@live", { contextPath := some "a@live", uri := some "/shop/shoes@live" }),
       ("b@live", { contextPath := some "b@live", uri := some "/shop/shoes/red@live" }),
       ("c@live", { contextPath := some "c@live", uri := some "/shop/shoeshine@live" })]
    siteNode := "", focusedContextPath := "", focusedFusionPath := "",
    toBeRemoved := "", clipboard := "", clipboardMode := "" }

/-- Witness for C4 at the shop state: `/shop/shoes@live` and
`/shop/shoes/red@live` are rewritten to the sneakers uris and
`/shop/shoeshine@live` is left unchanged. -/
theorem updateUri_spec_witness :
    ((lookupNode (reduce (.updateUri "shop/shoes" "shop/sneakers") c4state).byContextPath "a@live").map Node.uri) = some (some "/shop/sneakers@live") ∧
    ((lookupNode (reduce (.updateUri "shop/shoes" "shop/sneakers") c4state).byContextPath "b@live").map Node.uri) = some (some "/shop/sneakers/red@live") ∧
    ((lookupNode (reduce (.updateUri "shop/shoes" "shop/sneakers") c4state).byContextPath "c@live").map Node.uri) = some (some "/shop/shoeshine@live") := by
  have ha := updateUri_spec c4state "shop/shoes" "shop/sneakers" (by decide)
    (by decide) "a@live" { contextPath := some "a@live", uri := some "/shop/shoes@live" } (by decide)
  have hb := updateUri_spec c4state "shop/shoes" "shop/sneakers" (by decide)
    (by decide) "b@live" { contextPath := some "b@live", uri := some "/shop/shoes/red@live" } (by decide)
  have hc := updateUri_spec c4state "shop/shoes" "shop/sneakers" (by decide)
    (by decide) "c@live" { contextPath := some "c@live", uri := some "/shop/shoeshine@live" } (by decide)
  refine ⟨?_, ?_, ?_⟩
  · rw [ha]; decide
  · rw [hb]; decide
  · rw [hc]; decide

/-! ### C5: ADD is a deep merge, not a replace -/

/-- The one-node state of the ADD merge counterexample. -/
def c5state : State :=
  { byContextPath := [("n", { contextPath := some "n", nodeType := some "Old", uri := some "/old@live" })]
    siteNode := "", focusedContextPath := "", focusedFusionPath := "",
    toBeRemoved := "", clipboard := "", clipboardMode := "" }

/-- C5 (code bug): ADD deep-merges (plow-js `$merge` = Immutable
`mergeDeepIn`) instead of replacing the touched record's full field set:
adding a payload that holds only `nodeType` for key `n` leaves the
pre-existing `uri` (and `contextPath`) fields in place, contradicting
the claim and the ADD action's own doc comment ("Completely *replaces*
the nodes from the application state with the passed nodes"). -/
theorem add_merge_keeps_stale_field :
    lookupNode (reduce (.add [("n", { nodeType := some "New" })]) c5state).byContextPath "n" =
      some { contextPath := some "n", nodeType := some "New", uri := some "/old@live", children := some [] } := by
  decide

/-! ### Property-map lemmas (for C6) -/

theorem lookupProp_nil (k : String) : lookupProp [] k = none := rfl

theorem lookupProp_cons (e : String × Bool) (rest : List (String × Bool)) (k : String) :
    lookupProp (e :: rest) k = if e.1 = k then some e.2 else lookupProp rest k := rfl

theorem lookupProp_append (x y : List (String × Bool)) (k : String) :
    lookupProp (x ++ y) k =
      match lookupProp x k with
      | some v => some v
      | none => lookupProp y k := by
  induction x with
  | nil => rfl
  | cons e rest ih =>
    by_cases h : e.1 = k
    · simp [lookupProp_cons, h]
    · simp only [List.cons_append, lookupProp_cons, if_neg h, ih]

theorem containsProp_of_mem :
    ∀ {a : List (String × Bool)} {e : String × Bool}, e ∈ a → containsProp a e.1 = true
  | [], _, h => by cases h
  | e' :: rest, e, h => by
    rcases List.mem_cons.mp h with rfl | hmem
    · simp [containsProp, lookupProp_cons]
    · by_cases he : e'.1 = e.1
      · simp [containsProp, lookupProp_cons, he]
      · simpa [containsProp, lookupProp_cons, he] using containsProp_of_mem hmem

theorem lookupProp_eq_of_mem_nodup :
    ∀ {a : List (String × Bool)}, ((a.map Prod.fst).Nodup) → ∀ {e : String × Bool}, e ∈ a →
      lookupProp a e.1 = some e.2
  | [], _, _, he => by cases he
  | e' :: rest, hnd, e, he => by
    rcases List.mem_cons.mp he with rfl | hmem
    · rw [lookupProp_cons, if_pos rfl]
    · by_cases hae : e'.1 = e.1
      · exfalso
        have h1 : e.1 ∈ rest.map Prod.fst := List.mem_map_of_mem Prod.fst hmem
        exact (List.nodup_cons.mp hnd).1 (hae ▸ h1)
      · rw [lookupProp_cons, if_neg hae]
        exact lookupProp_eq_of_mem_nodup (List.nodup_cons.mp hnd).2 hmem

theorem lookupProp_mapVal (f : String → Bool → Bool) (a : List (String × Bool)) (k : String) :
    lookupProp (a.map (fun e => (e.1, f e.1 e.2))) k = (lookupProp a k).map (f k) := by
  induction a with
  | nil => rfl
  | cons e rest ih =>
    by_cases h : e.1 = k
    · subst h; simp [lookupProp_cons]
    · simp only [List.map_cons, lookupProp_cons, if_neg h, ih]

theorem containsProp_mergeProps_of_mem {b : List (String × Bool)} {e : String × Bool}
    (he : e ∈ b) (a : List (String × Bool)) :
    containsProp (mergeProps a b) e.1 = true := by
  unfold containsProp mergeProps
  rw [lookupProp_append, lookupProp_mapVal]
  rcases ha : lookupProp a e.1 with _ | v
  · rcases hmemf : lookupProp (b.filter (fun e => !(containsProp a e.1))) e.1 with _ | w
    · exfalso
      have hef : e ∈ b.filter (fun e => !(containsProp a e.1)) := by
        rw [List.mem_filter]
        exact ⟨he, by simp [containsProp, ha]⟩
      have h3 : (lookupProp (b.filter (fun e => !(containsProp a e.1))) e.1).isSome = true :=
        containsProp_of_mem hef
      rw [hmemf] at h3
      cases h3
    · simp [ha, hmemf]
  · simp [ha]

/-- Merging the same `properties` payload twice is the same as merging
it once (payload keys unique). -/
theorem mergeProps_absorb (a b : List (String × Bool)) (hb : (b.map Prod.fst).Nodup) :
    mergeProps (mergeProps a b) b = mergeProps a b := by
  have hfilter : (b.filter (fun e => !(containsProp (mergeProps a b) e.1))) = [] := by
    rw [List.filter_eq_nil_iff]
    intro e he
    rw [containsProp_mergeProps_of_mem he a]
    simp
  show (mergeProps a b).map (fun e => (e.1, propVal b e.1 e.2)) ++ _ = mergeProps a b
  rw [hfilter, List.append_nil]
  refine (List.map_congr_left ?_).trans (List.map_id _)
  intro q hq
  rcases List.mem_append.mp hq with hq | hq
  · rw [List.mem_map] at hq
    obtain ⟨x, _, rfl⟩ := hq
    show ((x.1, propVal b x.1 (propVal b x.1 x.2)) : String × Bool) = (x.1, propVal b x.1 x.2)
    unfold propVal
    cases lookupProp b x.1 <;> rfl
  · have hqb : q ∈ b := (List.mem_filter.mp hq).1
    have : lookupProp b q.1 = some q.2 := lookupProp_eq_of_mem_nodup hb hqb
    show ((q.1, propVal b q.1 q.2) : String × Bool) = q
    unfold propVal
    rw [this]

/-- Merging a `properties` map into itself is the identity (keys
unique). -/
theorem mergeProps_self (p : List (String × Bool)) (hp : (p.map Prod.fst).Nodup) :
    mergeProps p p = p := by
  have hfilter : (p.filter (fun e => !(containsProp p e.1))) = [] := by
    rw [List.filter_eq_nil_iff]
    intro e he
    rw [containsProp_of_mem he]
    simp
  show p.map (fun e => (e.1, propVal p e.1 e.2)) ++ _ = p
  rw [hfilter, List.append_nil]
  refine (List.map_congr_left ?_).trans (List.map_id _)
  intro q hq
  show ((q.1, propVal p q.1 q.2) : String × Bool) = q
  unfold propVal
  rw [lookupProp_eq_of_mem_nodup hp hq]

/-! ### Node-level merge lemmas (for C6) -/

/-- A node with its derived `children` field erased. -/
def nodeSkel (n : Node) : Node := { n with children := none }

/-- The `properties` keys of a record are unique (vacuously true for an
absent `properties` map); JavaScript objects always satisfy this. -/
def propKeysNodup (n : Node) : Prop := (((n.properties).getD []).map Prod.fst).Nodup

instance (n : Node) : Decidable (propKeysNodup n) := by
  unfold propKeysNodup
  infer_instance

theorem mField_absorb {α : Type} (a b : Option α) : mField (mField a b) b = mField a b := by
  cases b <;> rfl

theorem mergeNode_absorb_skel (x pn : Node) (hpn : propKeysNodup pn) :
    nodeSkel (mergeNode (mergeNode x pn) pn) = nodeSkel (mergeNode x pn) := by
  unfold nodeSkel mergeNode
  simp only [Node.mk.injEq, and_true]
  refine ⟨mField_absorb _ _, mField_absorb _ _, mField_absorb _ _, mField_absorb _ _, ?_,
    mField_absorb _ _⟩
  rcases hxp : x.properties with _ | pa <;> rcases hpp : pn.properties with _ | pb
  · rfl
  · unfold propKeysNodup at hpn
    rw [hpp] at hpn
    simp only [Option.getD_some] at hpn
    simp [mField, mergeProps_self pb hpn]
  · rfl
  · unfold propKeysNodup at hpn
    rw [hpp] at hpn
    simp only [Option.getD_some] at hpn
    simp [mField, mergeProps_absorb pa pb hpn]

theorem mergeNode_self_skel (n : Node) (hn : propKeysNodup n) :
    nodeSkel (mergeNode n n) = nodeSkel n := by
  unfold nodeSkel mergeNode
  simp only [Node.mk.injEq, and_true]
  have hf : ∀ {α : Type} (a : Option α), mField a a = a := by
    intro α a; cases a <;> rfl
  refine ⟨hf _, hf _, hf _, hf _, ?_, hf _⟩
  rcases hp : n.properties with _ | pp
  · rfl
  · unfold propKeysNodup at hn
    rw [hp] at hn
    simp only [Option.getD_some] at hn
    simp [mergeProps_self pp hn]

/-! ### Map-level merge lemmas (for C6 and C7) -/

theorem containsKey_iff_mem {m : NodeMap} {c : String} :
    containsKey m c = true ↔ c ∈ keysOf m := by
  induction m with
  | nil => simp [containsKey, lookupNode_nil, keysOf]
  | cons e rest ih =>
    by_cases h : e.1 = c
    · simp [containsKey, lookupNode_cons, h, keysOf]
    · simp only [containsKey, lookupNode_cons, if_neg h, keysOf, List.map_cons,
        List.mem_cons] at ih ⊢
      rw [ih]
      constructor
      · exact Or.inr
      · rintro (hc | hc)
        · exact absurd hc.symm h
        · exact hc

theorem keysOf_entrySkel (m : NodeMap) : keysOf (m.map entrySkel) = keysOf m := by
  unfold keysOf
  rw [List.map_map]
  rfl

theorem containsKey_congr_skel {X Y : NodeMap} (h : X.map entrySkel = Y.map entrySkel)
    (c : String) : containsKey X c = containsKey Y c := by
  have hk : keysOf X = keysOf Y := by
    rw [← keysOf_entrySkel X, h, keysOf_entrySkel Y]
  cases hX : containsKey X c with
  | true =>
    exact (containsKey_iff_mem.mpr (hk ▸ containsKey_iff_mem.mp hX)).symm
  | false =>
    cases hY : containsKey Y c with
    | true => exact absurd (hk ▸ containsKey_iff_mem.mp hY) (by rw [← containsKey_iff_mem, hX]; simp)
    | false => rfl

theorem containsKey_append (x y : NodeMap) (k : String) :
    containsKey (x ++ y) k = (containsKey x k || containsKey y k) := by
  unfold containsKey
  rw [lookup_append]
  cases lookupNode x k <;> simp

theorem mem_of_lookup : ∀ {m : NodeMap} {k : String} {n : Node},
    lookupNode m k = some n → (k, n) ∈ m
  | [], _, _, h => by cases h
  | e :: rest, k, n, h => by
    rw [lookupNode_cons] at h
    by_cases hek : e.1 = k
    · rw [if_pos hek] at h
      injection h with h
      exact List.mem_cons.mpr (Or.inl (by rw [← hek, ← h]))
    · rw [if_neg hek] at h
      exact List.mem_cons_of_mem e (mem_of_lookup h)

theorem containsKey_mergeD_of_mem_payload {p : NodeMap} {e : String × Node} (he : e ∈ p)
    (a : NodeMap) : containsKey (mergeDeepNodes a p) e.1 = true := by
  unfold mergeDeepNodes
  rw [containsKey_append]
  cases ha : containsKey a e.1 with
  | true =>
    have h1 : containsKey (a.map (fun e => (e.1, mergeVal p e.1 e.2))) e.1 = true := by
      unfold containsKey at ha ⊢
      rw [lookup_mapVal]
      cases hl : lookupNode a e.1
      · rw [hl] at ha; cases ha
      · rfl
    rw [h1]
    rfl
  | false =>
    have h2 : e ∈ p.filter (fun e => !(containsKey a e.1)) := by
      rw [List.mem_filter]
      exact ⟨he, by rw [ha]; rfl⟩
    rw [containsKey_of_mem h2]
    simp

/-- Deep-merging a payload respects the children-erased skeleton: equal
skeletons merge to equal skeletons. -/
theorem mergeD_skel_congr {X Y : NodeMap} (h : X.map entrySkel = Y.map entrySkel)
    (p : NodeMap) :
    (mergeDeepNodes X p).map entrySkel = (mergeDeepNodes Y p).map entrySkel := by
  unfold mergeDeepNodes
  rw [List.map_append, List.map_append]
  have key : ∀ Z : NodeMap,
      (Z.map (fun e => (e.1, mergeVal p e.1 e.2))).map entrySkel =
        (Z.map entrySkel).map (fun e => entrySkel (e.1, mergeVal p e.1 e.2)) := by
    intro Z
    rw [List.map_map, List.map_map]
    apply List.map_congr_left
    intro e _
    show entrySkel (e.1, mergeVal p e.1 e.2) = entrySkel (e.1, mergeVal p e.1 (nodeSkel e.2))
    show ((e.1, nodeSkel (mergeVal p e.1 e.2)) : String × Node) = (e.1, nodeSkel (mergeVal p e.1 (nodeSkel e.2)))
    unfold mergeVal
    cases lookupNode p e.1 <;> rfl
  congr 1
  · rw [key X, key Y, h]
  · have hfil : p.filter (fun e => !(containsKey X e.1)) = p.filter (fun e => !(containsKey Y e.1)) := by
      apply List.filter_congr
      intro e _
      rw [containsKey_congr_skel h]
    rw [hfil]

/-- Deep-merging the same payload twice gives the same skeleton as
merging it once (payload keys and property keys unique). -/
theorem mergeD_absorb_skel (m p : NodeMap) (hnd : (keysOf p).Nodup)
    (hprops : ∀ e ∈ p, propKeysNodup e.2) :
    (mergeDeepNodes (mergeDeepNodes m p) p).map entrySkel =
      (mergeDeepNodes m p).map entrySkel := by
  have hfil : p.filter (fun e => !(containsKey (mergeDeepNodes m p) e.1)) = [] := by
    rw [List.filter_eq_nil_iff]
    intro e he
    rw [containsKey_mergeD_of_mem_payload he m]
    simp
  show ((mergeDeepNodes m p).map (fun e => (e.1, mergeVal p e.1 e.2)) ++ _).map entrySkel = _
  rw [hfil, List.append_nil, List.map_map]
  apply List.map_congr_left
  intro a ha
  show ((a.1, nodeSkel (mergeVal p a.1 a.2)) : String × Node) = (a.1, nodeSkel a.2)
  rcases hlp : lookupNode p a.1 with _ | pn
  · unfold mergeVal
    rw [hlp]
  · have hpnmem : (a.1, pn) ∈ p := mem_of_lookup hlp
    have hpn : propKeysNodup pn := hprops (a.1, pn) hpnmem
    unfold mergeVal
    rw [hlp]
    rcases List.mem_append.mp ha with hm | hf
    · rw [List.mem_map] at hm
      obtain ⟨x, hx, rfl⟩ := hm
      simp only [] at hlp ⊢
      show ((x.1, nodeSkel (mergeNode (mergeVal p x.1 x.2) pn)) : String × Node) = (x.1, nodeSkel (mergeVal p x.1 x.2))
      unfold mergeVal
      rw [hlp]
      exact congrArg (fun z => (x.1, z)) (mergeNode_absorb_skel x.2 pn hpn)
    · have hap : a ∈ p := (List.mem_filter.mp hf).1
      have hlk : lookupNode p a.1 = some a.2 := lookup_eq_of_mem_nodup hnd hap
      rw [hlk] at hlp
      injection hlp with hlp
      rw [← hlp]
      exact congrArg (fun z => (a.1, z)) (mergeNode_self_skel a.2 (hlp ▸ hpn))

/-! ### C6 -/

/-- C6: ADD is idempotent — applying ADD with the same node map twice in
a row yields the same store as applying it once.  (The payload is a
JavaScript object, so its context-path keys and each record's property
keys are unique.) -/
theorem add_idempotent (s : State) (p : NodeMap)
    (hnd : (keysOf p).Nodup)
    (hprops : ∀ e ∈ p, propKeysNodup e.2) :
    reduce (.add p) (reduce (.add p) s) = reduce (.add p) s := by
  have hmap : populateChildren (mergeDeepNodes (populateChildren (mergeDeepNodes s.byContextPath p)) p) = populateChildren (mergeDeepNodes s.byContextPath p) := by
    apply populate_congr
    calc (mergeDeepNodes (populateChildren (mergeDeepNodes s.byContextPath p)) p).map entrySkel
        = (mergeDeepNodes (mergeDeepNodes s.byContextPath p) p).map entrySkel :=
          mergeD_skel_congr (populate_entrySkel _) p
      _ = (mergeDeepNodes s.byContextPath p).map entrySkel := mergeD_absorb_skel _ p hnd hprops
  show ({ s with byContextPath := populateChildren (mergeDeepNodes (populateChildren (mergeDeepNodes s.byContextPath p)) p) } : State) = { s with byContextPath := populateChildren (mergeDeepNodes s.byContextPath p) }
  rw [hmap]

/-- Witness for C6: a payload overlapping an existing record. -/
theorem add_idempotent_witness :
    reduce (.add [("n", { nodeType := some "New", properties := some [("_hidden", true)] })]) (reduce (.add [("n", { nodeType := some "New", properties := some [("_hidden", true)] })]) c5state) =
      reduce (.add [("n", { nodeType := some "New", properties := some [("_hidden", true)] })]) c5state := by
  exact add_idempotent c5state [("n", { nodeType := some "New", properties := some [("_hidden", true)] })] (by decide) (by decide)

/-! ### Key-set lemmas (for C7) -/

theorem containsKey_congr_keys {X Y : NodeMap} (h : keysOf X = keysOf Y) (c : String) :
    containsKey X c = containsKey Y c := by
  cases hX : containsKey X c with
  | true => exact (containsKey_iff_mem.mpr (h ▸ containsKey_iff_mem.mp hX)).symm
  | false =>
    cases hY : containsKey Y c with
    | true =>
      have hmem : c ∈ keysOf X := h.symm ▸ containsKey_iff_mem.mp hY
      have : containsKey X c = true := containsKey_iff_mem.mpr hmem
      rw [hX] at this
      cases this
    | false => rfl

theorem containsKey_mapVal (f : String → Node → Node) (m : NodeMap) (k : String) :
    containsKey (m.map (fun e => (e.1, f e.1 e.2))) k = containsKey m k := by
  unfold containsKey
  rw [lookup_mapVal]
  cases lookupNode m k <;> rfl

theorem containsKey_populate (m : NodeMap) (c : String) :
    containsKey (populateChildren m) c = containsKey m c :=
  containsKey_congr_keys (keysOf_populateChildren m) c

theorem containsKey_mergeD_of_left {m : NodeMap} {k : String}
    (h : containsKey m k = true) (p : NodeMap) :
    containsKey (mergeDeepNodes m p) k = true := by
  unfold mergeDeepNodes
  rw [containsKey_append, containsKey_mapVal (mergeVal p) m k, h]
  rfl

theorem keysOf_setNodeAt_of_contains (m : NodeMap) (c : String) (f : Node → Node)
    (created : Node) (h : containsKey m c = true) :
    keysOf (setNodeAt m c f created) = keysOf m := by
  unfold setNodeAt
  rw [if_pos h]
  exact keysOf_updateNode m c f

theorem keysOf_filter_ne (m : NodeMap) (c : String) :
    keysOf (m.filter (fun e => e.1 ≠ c)) = (keysOf m).filter (fun k => k ≠ c) := by
  induction m with
  | nil => rfl
  | cons e rest ih =>
    by_cases h : e.1 = c
    · rw [List.filter_cons_of_neg (by simp [h]), ih]
      show _ = (e.1 :: keysOf rest).filter (fun k => k ≠ c)
      rw [List.filter_cons_of_neg (by simp [h])]
    · rw [List.filter_cons_of_pos (by simp [h])]
      show e.1 :: keysOf (rest.filter (fun e => e.1 ≠ c)) = (e.1 :: keysOf rest).filter (fun k => k ≠ c)
      rw [List.filter_cons_of_pos (by simp [h]), ih]

theorem keysOf_foldl_uriStep (oldF newF : String) :
    ∀ (es : NodeMap) (acc : NodeMap),
      (∀ e ∈ es, ∀ c, e.2.contextPath = some c → containsKey acc c = true) →
      keysOf (List.foldl (uriStep oldF newF) acc es) = keysOf acc := by
  intro es
  induction es with
  | nil =>
    intro acc _
    rfl
  | cons e rest ih =>
    intro acc hc
    rw [List.foldl_cons]
    have hstepkeys : keysOf (uriStep oldF newF acc e) = keysOf acc := by
      unfold uriStep
      rcases hu : e.2.uri with _ | u
      · rfl
      · show keysOf (if uriMatches oldF u then _ else acc) = keysOf acc
        by_cases hm : uriMatches oldF u
        · rw [if_pos hm]
          rcases hcp : e.2.contextPath with _ | c
          · rfl
          · show keysOf (setUriAt acc c _) = keysOf acc
            exact keysOf_setNodeAt_of_contains acc c _ _
              (hc e (List.mem_cons_self e rest) c hcp)
        · rw [if_neg hm]
    rw [ih (uriStep oldF newF acc e) ?_, hstepkeys]
    intro e' he' c hc'
    rw [containsKey_congr_keys hstepkeys]
    exact hc e' (List.mem_cons_of_mem e he') c hc'

/-! ### C7 -/

/-- The empty store, for the C7 counterexample. -/
def c7empty : State :=
  { byContextPath := [], siteNode := "", focusedContextPath := "", focusedFusionPath := "",
    toBeRemoved := "", clipboard := "", clipboardMode := "" }

/-- A store with one record whose `contextPath` field (`"b"`) differs
from its key (`"a"`), for the C7 counterexample. -/
def c7mismatch : State :=
  { byContextPath := [("a", { contextPath := some "b", uri := some "/y@live" })]
    siteNode := "", focusedContextPath := "", focusedFusionPath := "",
    toBeRemoved := "", clipboard := "", clipboardMode := "" }

/-- C7 is false as stated: HIDE, SHOW and MOVE with a context path that
is absent from `byContextPath` create a key (Immutable `setIn` creates
missing path members), and UPDATE_URI writes under each record's
`contextPath` field, creating a key when that field differs from the
record's key. -/
theorem keyset_not_invariant_counterexample :
    keysOf (reduce (.hide "x") c7empty).byContextPath = ["x"] ∧
    keysOf (reduce (.showNode "x") c7empty).byContextPath = ["x"] ∧
    keysOf (reduce (.move "x" "t" "into") c7empty).byContextPath = ["x"] ∧
    keysOf (reduce (.updateUri "y" "z") c7mismatch).byContextPath = ["a", "b"] := by
  decide

/-- C7 amended: the key set of `byContextPath` is unchanged by FOCUS,
UNFOCUS, COMMENCE_REMOVAL, REMOVAL_ABORTED, REMOVAL_CONFIRMED, COPY,
CUT and PASTE for every payload; by UPDATE_URI whenever every record's
`contextPath` field equals its key; and by MOVE, HIDE and SHOW whenever
the written context path (the moved / hidden / shown node) is present in
the map — with an absent path these three create a partial record at
that key.  REMOVE removes exactly the given key and nothing else, and
ADD and SWITCH_DIMENSION preserve every existing key (they only create). -/
theorem keyset_invariant_amended (s : State) :
    (∀ c f, (reduce (.focus c f) s).byContextPath = s.byContextPath) ∧
    ((reduce .unfocus s).byContextPath = s.byContextPath) ∧
    (∀ c, (reduce (.commenceRemoval c) s).byContextPath = s.byContextPath) ∧
    ((reduce .removalAborted s).byContextPath = s.byContextPath) ∧
    ((reduce .removalConfirmed s).byContextPath = s.byContextPath) ∧
    (∀ c, (reduce (.copy c) s).byContextPath = s.byContextPath) ∧
    (∀ c, (reduce (.cut c) s).byContextPath = s.byContextPath) ∧
    ((reduce .paste s).byContextPath = s.byContextPath) ∧
    (∀ oldF newF, (∀ e ∈ s.byContextPath, e.2.contextPath = some e.1) →
      keysOf (reduce (.updateUri oldF newF) s).byContextPath = keysOf s.byContextPath) ∧
    (∀ c, containsKey s.byContextPath c = true →
      keysOf (reduce (.hide c) s).byContextPath = keysOf s.byContextPath) ∧
    (∀ c, containsKey s.byContextPath c = true →
      keysOf (reduce (.showNode c) s).byContextPath = keysOf s.byContextPath) ∧
    (∀ src tgt pos, containsKey s.byContextPath src = true →
      keysOf (reduce (.move src tgt pos) s).byContextPath = keysOf s.byContextPath) ∧
    (∀ c, keysOf (reduce (.remove c) s).byContextPath =
      (keysOf s.byContextPath).filter (fun k => k ≠ c)) ∧
    (∀ p k, containsKey s.byContextPath k = true →
      containsKey (reduce (.add p) s).byContextPath k = true) ∧
    (∀ site doc nodes k, containsKey s.byContextPath k = true →
      containsKey (reduce (.switchDimension site doc nodes) s).byContextPath k = true) := by
  refine ⟨fun _ _ => rfl, rfl, fun _ => rfl, rfl, rfl, fun _ => rfl, fun _ => rfl, rfl,
    ?_, ?_, ?_, ?_, ?_, ?_, ?_⟩
  · intro oldF newF hck
    show keysOf (updateUriMap s.byContextPath oldF newF) = keysOf s.byContextPath
    unfold updateUriMap
    apply keysOf_foldl_uriStep
    intro e he c hc
    rw [hck e he] at hc
    injection hc with hc
    rw [← hc]
    exact containsKey_of_mem he
  · intro c h
    show keysOf (setHiddenAt s.byContextPath c true) = keysOf s.byContextPath
    exact keysOf_setNodeAt_of_contains _ _ _ _ h
  · intro c h
    show keysOf (setHiddenAt s.byContextPath c false) = keysOf s.byContextPath
    exact keysOf_setNodeAt_of_contains _ _ _ _ h
  · intro src tgt pos h
    show keysOf (populateChildren (setParentAt (setIndexAt s.byContextPath src (moveNewIndex s.byContextPath tgt pos)) src (moveBaseNode tgt pos))) = keysOf s.byContextPath
    rw [keysOf_populateChildren]
    have h1 : keysOf (setIndexAt s.byContextPath src (moveNewIndex s.byContextPath tgt pos)) = keysOf s.byContextPath :=
      keysOf_setNodeAt_of_contains _ _ _ _ h
    have h2 : containsKey (setIndexAt s.byContextPath src (moveNewIndex s.byContextPath tgt pos)) src = true := by
      rw [containsKey_congr_keys h1]
      exact h
    exact (keysOf_setNodeAt_of_contains _ src _ _ h2).trans h1
  · intro c
    show keysOf (s.byContextPath.filter (fun e => e.1 ≠ c)) = _
    exact keysOf_filter_ne s.byContextPath c
  · intro p k h
    show containsKey (populateChildren (mergeDeepNodes s.byContextPath p)) k = true
    rw [containsKey_populate]
    exact containsKey_mergeD_of_left h p
  · intro site doc nodes k h
    show containsKey (mergeDeepNodes s.byContextPath (populateChildren nodes)) k = true
    exact containsKey_mergeD_of_left h (populateChildren nodes)

/-- Witness for the amended C7: hiding the present node `n` of
`c5state` keeps the key set. -/
theorem keyset_invariant_amended_witness :
    containsKey c5state.byContextPath "n" = true ∧
    keysOf (reduce (.hide "n") c5state).byContextPath = keysOf c5state.byContextPath := by
  have h := keyset_invariant_amended c5state
  exact ⟨by decide, h.2.2.2.2.2.2.2.2.2.1 "n" (by decide)⟩

/-! ### C8 -/

/-- A record whose parent resolves to no key of the map lands in no
`children` list of the populated map. -/
theorem orphan_not_in_children (nodes : NodeMap) (hnd : (keysOf nodes).Nodup)
    (C : String) (nc : Node) (hC : lookupNode nodes C = some nc)
    (hnores : ∀ q, nc.parentContextPath = some q → containsKey nodes q = false) :
    ∀ k n, lookupNode (populateChildren nodes) k = some n →
      ∀ r ∈ (n.children.getD []), r.contextPath ≠ C := by
  intro k n hkn r hr hrc
  rw [lookup_populateChildren] at hkn
  rcases hnk : lookupNode nodes k with _ | n0
  · rw [hnk] at hkn
    cases hkn
  · rw [hnk] at hkn
    injection hkn with hkn
    have hch : n.children = some (sortChildren (childEntries nodes k)) := by
      rw [← hkn]
    rw [hch] at hr
    simp only [Option.getD_some] at hr
    have hrce : r ∈ childEntries nodes k := (sortChildren_perm _).mem_iff.mp hr
    obtain ⟨e, he, hpar, rfl⟩ := mem_childEntries hrce
    have he1 : e.1 = C := hrc
    have hlk : lookupNode nodes e.1 = some e.2 := lookup_eq_of_mem_nodup hnd he
    rw [he1, hC] at hlk
    injection hlk with hlk
    have hparc : nc.parentContextPath = some k := by
      rw [hlk]
      exact hpar
    have hfalse := hnores k hparc
    rw [containsKey_true_of_lookup hnk] at hfalse
    cases hfalse

/-- C8: REMOVE deletes exactly the single given key from
`byContextPath` and nothing else: the rest of the store (all other
records, with all their fields, and every scalar field) is untouched and
the Child Index Builder is not re-run; a remaining child C of the
removed parent stays queryable with its record unchanged, and after the
next full rebuild C appears in no `children` list. -/
theorem remove_frame_spec (s : State) (p : String) :
    (reduce (.remove p) s) = { s with byContextPath := s.byContextPath.filter (fun e => e.1 ≠ p) } ∧
    (lookupNode (reduce (.remove p) s).byContextPath p = none) ∧
    (∀ k, k ≠ p → lookupNode (reduce (.remove p) s).byContextPath k = lookupNode s.byContextPath k) ∧
    (∀ C nc, C ≠ p → lookupNode s.byContextPath C = some nc →
      lookupNode (reduce (.remove p) s).byContextPath C = some nc) ∧
    ((keysOf s.byContextPath).Nodup →
      ∀ C nc, C ≠ p → lookupNode s.byContextPath C = some nc →
        nc.parentContextPath = some p →
        ∀ k n, lookupNode (populateChildren (reduce (.remove p) s).byContextPath) k = some n →
          ∀ r ∈ (n.children.getD []), r.contextPath ≠ C) := by
  have hlk : ∀ k, lookupNode (reduce (.remove p) s).byContextPath k =
      if k = p then none else lookupNode s.byContextPath k :=
    fun k => lookup_filter_ne s.byContextPath p k
  refine ⟨rfl, by rw [hlk, if_pos rfl], fun k hk => by rw [hlk, if_neg hk], ?_, ?_⟩
  · intro C nc hCp hC
    rw [hlk, if_neg hCp, hC]
  · intro hnd C nc hCp hC hpar
    have hndE : (keysOf (reduce (.remove p) s).byContextPath).Nodup := by
      show (keysOf (s.byContextPath.filter (fun e => e.1 ≠ p))).Nodup
      rw [keysOf_filter_ne]
      exact hnd.filter _
    have hCE : lookupNode (reduce (.remove p) s).byContextPath C = some nc := by
      rw [hlk, if_neg hCp, hC]
    apply orphan_not_in_children _ hndE C nc hCE
    intro q hq
    rw [hpar] at hq
    injection hq with hq
    subst hq
    unfold containsKey
    rw [hlk, if_pos rfl]
    rfl

/-- The two-node parent/child state of the C8 witness. -/
def c8state : State :=
  { byContextPath :=
      [("p@live", { contextPath := some "p@live", nodeType := some "page", index := some (.num 1) }),
       ("c@live", { contextPath := some "c@live", parentContextPath := some "p@live", nodeType := some "text", index := some (.num 2) })]
    siteNode := "", focusedContextPath := "", focusedFusionPath := "",
    toBeRemoved := "", clipboard := "", clipboardMode := "" }

/-- Witness for C8: after REMOVE of the parent, the child is still
queryable unchanged and the parent's key is gone. -/
theorem remove_frame_spec_witness :
    lookupNode (reduce (.remove "p@live") c8state).byContextPath "c@live" =
      some { contextPath := some "c@live", parentContextPath := some "p@live", nodeType := some "text", index := some (.num 2) } ∧
    lookupNode (reduce (.remove "p@live") c8state).byContextPath "p@live" = none := by
  have h := remove_frame_spec c8state "p@live"
  exact ⟨h.2.2.2.1 "c@live" _ (by decide) (by decide), h.2.1⟩

/-! ### C9 -/

theorem lookup_eq_none_of_not_contains {m : NodeMap} {c : String}
    (h : containsKey m c = false) : lookupNode m c = none := by
  unfold containsKey at h
  cases hl : lookupNode m c with
  | none => rfl
  | some n =>
    rw [hl] at h
    cases h

/-- C9: every operation of the Mutation Engine is modelled by the total
function `reduce` — every JavaScript partial operation in the reducer is
guarded (`parentNode && ...`, `nodeUri && ...`, null-safe `$get`) or
tolerant of `undefined` (`undefined ± 1` is `NaN`, `setIn`/`deleteIn` on
missing keys create/skip them), so no action can throw on any store
snapshot.  The conjuncts exhibit the graceful degradations at the
claim's missing-key examples: REMOVE of a non-existent key is a no-op on
the whole store; MOVE with a target absent from `byContextPath` stores a
`NaN` index on the moved node instead of failing; HIDE of an absent
context path creates a partial record instead of failing. -/
theorem reduce_total_graceful (s : State) :
    (∀ p, containsKey s.byContextPath p = false → reduce (.remove p) s = s) ∧
    (∀ src tgt pos, containsKey s.byContextPath tgt = false → pos ≠ "into" →
      ((lookupNode (reduce (.move src tgt pos) s).byContextPath src).map Node.index) =
        some (some JSNum.nan)) ∧
    (∀ c, containsKey s.byContextPath c = false →
      lookupNode (reduce (.hide c) s).byContextPath c =
        some { properties := some [("_hidden", true)] }) := by
  refine ⟨?_, ?_, ?_⟩
  · intro p hp
    have hfil : s.byContextPath.filter (fun e => e.1 ≠ p) = s.byContextPath := by
      rw [List.filter_eq_self]
      intro e he
      have : e.1 ≠ p := by
        intro hep
        rw [← hep, containsKey_of_mem he] at hp
        cases hp
      simp [this]
    show ({ s with byContextPath := s.byContextPath.filter (fun e => e.1 ≠ p) } : State) = s
    rw [hfil]
  · intro src tgt pos htgt hpos
    have hidx : moveNewIndex s.byContextPath tgt pos = JSNum.nan := by
      unfold moveNewIndex
      rw [lookup_eq_none_of_not_contains htgt]
      rw [if_neg hpos]
      by_cases h2 : pos = "before"
      · rw [if_pos h2]
        rfl
      · rw [if_neg h2]
        rfl
    show (Option.map Node.index (lookupNode (populateChildren (setParentAt (setIndexAt s.byContextPath src (moveNewIndex s.byContextPath tgt pos)) src (moveBaseNode tgt pos))) src)) = some (some JSNum.nan)
    rw [lookup_populateChildren, lookup_setParentAt, if_pos rfl, lookup_setIndexAt, if_pos rfl,
      hidx]
    rfl
  · intro c hc
    show lookupNode (setHiddenAt s.byContextPath c true) c = _
    rw [lookup_setHiddenAt, if_pos rfl, lookup_eq_none_of_not_contains hc]
    rfl

/-- Witness for C9 at the empty store. -/
theorem reduce_total_graceful_witness :
    reduce (.remove "x") c7empty = c7empty ∧
    ((lookupNode (reduce (.move "a" "x" "before") c7empty).byContextPath "a").map Node.index) =
      some (some JSNum.nan) ∧
    lookupNode (reduce (.hide "x") c7empty).byContextPath "x" =
      some { properties := some [("_hidden", true)] } := by
  have h := reduce_total_graceful c7empty
  exact ⟨h.1 "x" (by decide), h.2.1 "a" "x" "before" (by decide) (by decide),
    h.2.2 "x" (by decide)⟩

/-! ### C10 -/

theorem containsKey_setNodeAt_self (m : NodeMap) (c : String) (f : Node → Node)
    (created : Node) : containsKey (setNodeAt m c f created) c = true := by
  unfold containsKey
  rw [lookup_setNodeAt]
  cases lookupNode m c <;> simp

theorem mem_setNodeAt_of_contains {m : NodeMap} {c : String} {f : Node → Node}
    {created : Node} {e : String × Node} (h : containsKey m c = true)
    (he : e ∈ setNodeAt m c f created) :
    ∃ a ∈ m, e = if a.1 = c then (a.1, f a.2) else a := by
  unfold setNodeAt at he
  rw [if_pos h] at he
  unfold updateNode at he
  rw [List.mem_map] at he
  obtain ⟨a, ha, rfl⟩ := he
  exact ⟨a, ha, rfl⟩

theorem mem_setNodeAt_cases {m : NodeMap} {c : String} {f : Node → Node}
    {created : Node} {e : String × Node} (he : e ∈ setNodeAt m c f created) :
    (∃ a ∈ m, e = if a.1 = c then (a.1, f a.2) else a) ∨ e = (c, created) := by
  unfold setNodeAt at he
  by_cases h : containsKey m c
  · rw [if_pos h] at he
    unfold updateNode at he
    rw [List.mem_map] at he
    obtain ⟨a, ha, rfl⟩ := he
    exact Or.inl ⟨a, ha, rfl⟩
  · rw [if_neg h] at he
    rcases List.mem_append.mp he with hm | hs
    · refine Or.inl ⟨e, hm, ?_⟩
      by_cases hec : e.1 = c
      · exfalso
        rw [← hec] at h
        exact h (containsKey_of_mem hm)
      · rw [if_neg hec]
    · exact Or.inr (List.mem_singleton.mp hs)

theorem updateNode_eq_self {m : NodeMap} {c : String} {f : Node → Node}
    (h : ∀ e ∈ m, e.1 = c → f e.2 = e.2) : updateNode m c f = m := by
  unfold updateNode
  refine (List.map_congr_left ?_).trans (List.map_id _)
  intro e he
  by_cases hc : e.1 = c
  · rw [if_pos hc, h e he hc]
    rfl
  · rw [if_neg hc]
    rfl

theorem setNodeAt_eq_self {m : NodeMap} {c : String} {f : Node → Node} {created : Node}
    (hc : containsKey m c = true) (h : ∀ e ∈ m, e.1 = c → f e.2 = e.2) :
    setNodeAt m c f created = m := by
  unfold setNodeAt
  rw [if_pos hc]
  exact updateNode_eq_self h

/-- Every record stored under the moved node's key after the two MOVE
field writes carries the written index. -/
theorem moveWrites_index {m : NodeMap} {src : String} {idx : JSNum} {base : String}
    {e : String × Node} (he : e ∈ setParentAt (setIndexAt m src idx) src base)
    (hesrc : e.1 = src) : e.2.index = some idx := by
  have hc1 : containsKey (setIndexAt m src idx) src = true :=
    containsKey_setNodeAt_self m src _ _
  obtain ⟨a, ha, hae⟩ := mem_setNodeAt_of_contains hc1 he
  by_cases hasrc : a.1 = src
  · rw [if_pos hasrc] at hae
    subst hae
    show ({ a.2 with parentContextPath := some base } : Node).index = some idx
    show a.2.index = some idx
    rcases mem_setNodeAt_cases ha with ⟨b, _, hb⟩ | hcr
    · by_cases hbsrc : b.1 = src
      · rw [if_pos hbsrc] at hb
        rw [hb]
      · rw [if_neg hbsrc] at hb
        rw [hb] at hasrc
        exact absurd hasrc hbsrc
    · rw [hcr]
  · rw [if_neg hasrc] at hae
    rw [hae] at hesrc
    exact absurd hesrc hasrc

/-- Every record stored under the moved node's key after the two MOVE
field writes carries the written parent. -/
theorem moveWrites_parent {m : NodeMap} {src : String} {idx : JSNum} {base : String}
    {e : String × Node} (he : e ∈ setParentAt (setIndexAt m src idx) src base)
    (hesrc : e.1 = src) : e.2.parentContextPath = some base := by
  have hc1 : containsKey (setIndexAt m src idx) src = true :=
    containsKey_setNodeAt_self m src _ _
  obtain ⟨a, ha, hae⟩ := mem_setNodeAt_of_contains hc1 he
  by_cases hasrc : a.1 = src
  · rw [if_pos hasrc] at hae
    subst hae
    rfl
  · rw [if_neg hasrc] at hae
    rw [hae] at hesrc
    exact absurd hesrc hasrc

/-- C10: MOVE is idempotent when the moved node is not the target:
applying the same MOVE twice yields the same snapshot as applying it
once — the second application recomputes the same index from the
unchanged target, writes the same two field values it already wrote, and
the children rebuild is deterministic and idempotent. -/
theorem move_idempotent (s : State) (src tgt pos : String) (hne : src ≠ tgt) :
    reduce (.move src tgt pos) (reduce (.move src tgt pos) s) =
      reduce (.move src tgt pos) s := by
  have htgtsrc : ¬ tgt = src := fun h => hne h.symm
  have hidx : moveNewIndex (populateChildren (setParentAt (setIndexAt s.byContextPath src (moveNewIndex s.byContextPath tgt pos)) src (moveBaseNode tgt pos))) tgt pos = moveNewIndex s.byContextPath tgt pos := by
    have hbind : (lookupNode (populateChildren (setParentAt (setIndexAt s.byContextPath src (moveNewIndex s.byContextPath tgt pos)) src (moveBaseNode tgt pos))) tgt).bind Node.index = (lookupNode s.byContextPath tgt).bind Node.index := by
      rw [lookup_populateChildren, lookup_setParentAt, if_neg htgtsrc, lookup_setIndexAt,
        if_neg htgtsrc]
      cases lookupNode s.byContextPath tgt <;> rfl
    show (if pos = "into" then JSNum.num 9007199254740991 else if pos = "before" then jsSub ((lookupNode (populateChildren (setParentAt (setIndexAt s.byContextPath src (moveNewIndex s.byContextPath tgt pos)) src (moveBaseNode tgt pos))) tgt).bind Node.index) 1 else jsAdd ((lookupNode (populateChildren (setParentAt (setIndexAt s.byContextPath src (moveNewIndex s.byContextPath tgt pos)) src (moveBaseNode tgt pos))) tgt).bind Node.index) 1) = moveNewIndex s.byContextPath tgt pos
    rw [hbind]
    rfl
  have hMmem : ∀ e ∈ populateChildren (setParentAt (setIndexAt s.byContextPath src (moveNewIndex s.byContextPath tgt pos)) src (moveBaseNode tgt pos)), e.1 = src → e.2.index = some (moveNewIndex s.byContextPath tgt pos) ∧ e.2.parentContextPath = some (moveBaseNode tgt pos) := by
    intro e he hesrc
    rw [populate_eq_map, List.mem_map] at he
    obtain ⟨a, ha, rfl⟩ := he
    have hasrc : a.1 = src := hesrc
    have hidxa := moveWrites_index ha hasrc
    have hpara := moveWrites_parent ha hasrc
    exact ⟨hidxa, hpara⟩
  have hcM : containsKey (populateChildren (setParentAt (setIndexAt s.byContextPath src (moveNewIndex s.byContextPath tgt pos)) src (moveBaseNode tgt pos))) src = true := by
    rw [containsKey_populate]
    exact containsKey_setNodeAt_self _ src _ _
  have h1 : setIndexAt (populateChildren (setParentAt (setIndexAt s.byContextPath src (moveNewIndex s.byContextPath tgt pos)) src (moveBaseNode tgt pos))) src (moveNewIndex s.byContextPath tgt pos) = populateChildren (setParentAt (setIndexAt s.byContextPath src (moveNewIndex s.byContextPath tgt pos)) src (moveBaseNode tgt pos)) := by
    refine setNodeAt_eq_self hcM ?_
    intro e he hesrc
    have hfld := (hMmem e he hesrc).1
    show ({ e.2 with index := some (moveNewIndex s.byContextPath tgt pos) } : Node) = e.2
    rw [← hfld]
  have h2 : setParentAt (populateChildren (setParentAt (setIndexAt s.byContextPath src (moveNewIndex s.byContextPath tgt pos)) src (moveBaseNode tgt pos))) src (moveBaseNode tgt pos) = populateChildren (setParentAt (setIndexAt s.byContextPath src (moveNewIndex s.byContextPath tgt pos)) src (moveBaseNode tgt pos)) := by
    refine setNodeAt_eq_self hcM ?_
    intro e he hesrc
    have hfld := (hMmem e he hesrc).2
    show ({ e.2 with parentContextPath := some (moveBaseNode tgt pos) } : Node) = e.2
    rw [← hfld]
  show ({ s with byContextPath := populateChildren (setParentAt (setIndexAt (populateChildren (setParentAt (setIndexAt s.byContextPath src (moveNewIndex s.byContextPath tgt pos)) src (moveBaseNode tgt pos))) src (moveNewIndex (populateChildren (setParentAt (setIndexAt s.byContextPath src (moveNewIndex s.byContextPath tgt pos)) src (moveBaseNode tgt pos))) tgt pos)) src (moveBaseNode tgt pos)) } : State) = { s with byContextPath := populateChildren (setParentAt (setIndexAt s.byContextPath src (moveNewIndex s.byContextPath tgt pos)) src (moveBaseNode tgt pos)) }
  rw [hidx, h1, h2, populate_idem]

/-- Witness for C10 at the concrete sibling state of C3. -/
theorem move_idempotent_witness :
    reduce (.move "/site/a@live" "/site/b@live" "after") (reduce (.move "/site/a@live" "/site/b@live" "after") c3state) = reduce (.move "/site/a@live" "/site/b@live" "after") c3state :=
  move_idempotent c3state "/site/a@live" "/site/b@live" "after" (by decide)

end NeosNodes
